/-
Verification of the sparse-Merkle-tree addressing and tile-merge core
(crates/smt: node id, node row, tile merge) against its specification.

The Rust code is shallowly embedded: bytes are Nat values below 256, byte
strings are lists of Nat, fallible operations return Option or Except, and
the panicking constructors return Option (none models the panic).
-/
import Mathlib

set_option maxHeartbeats 1000000

namespace Smt

/-! ## Bit-string toolkit

Logical bit strings are lists of Bool, most significant bit first.  These are
not part of the Rust code; they give the claims about "logical bit strings"
a precise meaning. -/

/-- The eight bits of a byte, most significant first. -/
def byteBits (b : Nat) : List Bool :=
  [b.testBit 7, b.testBit 6, b.testBit 5, b.testBit 4,
   b.testBit 3, b.testBit 2, b.testBit 1, b.testBit 0]

/-- The bit stream of a byte buffer, most significant bit of the first byte
first. -/
def bytesBits (bs : List Nat) : List Bool := (bs.map byteBits).flatten

/-- Numeric value of a bit string, most significant bit first. -/
def bitsVal : List Bool → Nat
  | [] => 0
  | b :: rest => (if b then 1 else 0) * 2 ^ rest.length + bitsVal rest

/-- Strict lexicographic order on bit strings (false below true; a proper
extension is larger). -/
def lexLt : List Bool → List Bool → Bool
  | [], [] => false
  | [], _ :: _ => true
  | _ :: _, [] => false
  | a :: as, b :: bs => (!a && b) || (a == b && lexLt as bs)

theorem byteBits_length (b : Nat) : (byteBits b).length = 8 := rfl

theorem bitsVal_lt (l : List Bool) : bitsVal l < 2 ^ l.length := by
  induction l with
  | nil => simp [bitsVal]
  | cons b rest ih =>
    simp only [bitsVal, List.length_cons, pow_succ]
    cases b <;> simp <;> omega

theorem bitsVal_append (u v : List Bool) :
    bitsVal (u ++ v) = bitsVal u * 2 ^ v.length + bitsVal v := by
  induction u with
  | nil => simp [bitsVal]
  | cons b rest ih =>
    simp only [List.cons_append, bitsVal, List.length_append, List.length_cons,
      List.append_eq]
    rw [ih]
    cases b <;> simp [pow_add] <;> ring

theorem bitsVal_replicate_false (k : Nat) :
    bitsVal (List.replicate k false) = 0 := by
  induction k with
  | zero => rfl
  | succ n ih => simp [List.replicate, bitsVal, ih]

/-- The value of a prefix is the floor-division of the value of the whole. -/
theorem bitsVal_take (l : List Bool) (k : Nat) (hk : k ≤ l.length) :
    bitsVal (l.take k) = bitsVal l / 2 ^ (l.length - k) := by
  have hsplit : l = l.take k ++ l.drop k := (List.take_append_drop k l).symm
  have hlen : (l.drop k).length = l.length - k := List.length_drop k l
  have hval : bitsVal l = bitsVal (l.take k) * 2 ^ (l.length - k) + bitsVal (l.drop k) := by
    conv_lhs => rw [hsplit]
    rw [bitsVal_append, hlen]
  have hlt : bitsVal (l.drop k) < 2 ^ (l.length - k) := by
    have := bitsVal_lt (l.drop k); rwa [hlen] at this
  rw [hval, Nat.mul_comm, Nat.mul_add_div (Nat.pow_pos (by norm_num)),
    Nat.div_eq_of_lt hlt, Nat.add_zero]

/-- On equal-length bit strings, equal values force equal strings. -/
theorem bitsVal_inj (x y : List Bool) (hlen : x.length = y.length)
    (hval : bitsVal x = bitsVal y) : x = y := by
  induction x generalizing y with
  | nil => cases y with
    | nil => rfl
    | cons b bs => simp at hlen
  | cons a as ih =>
    cases y with
    | nil => simp at hlen
    | cons b bs =>
      simp only [List.length_cons, Nat.succ.injEq] at hlen
      simp only [bitsVal, hlen] at hval
      have hxa := bitsVal_lt as
      have hxb := bitsVal_lt bs
      rw [hlen] at hxa
      have hab : a = b := by
        cases a <;> cases b <;> simp at hval ⊢ <;> omega
      subst hab
      have : bitsVal as = bitsVal bs := by cases a <;> simp at hval <;> omega
      rw [ih bs hlen this]

/-- On equal-length bit strings, the strict lexicographic order is the
numeric order of their values. -/
theorem lexLt_iff_val (x y : List Bool) (hlen : x.length = y.length) :
    lexLt x y = true ↔ bitsVal x < bitsVal y := by
  induction x generalizing y with
  | nil => cases y with
    | nil => simp [lexLt, bitsVal]
    | cons b bs => simp at hlen
  | cons a as ih =>
    cases y with
    | nil => simp at hlen
    | cons b bs =>
      simp only [List.length_cons, Nat.succ.injEq] at hlen
      have hxa := bitsVal_lt as
      have hxb := bitsVal_lt bs
      rw [hlen] at hxa
      cases a <;> cases b <;>
        simp [lexLt, bitsVal, hlen, ih bs hlen] <;> omega

/-! ## ID (crates/smt/src/node.rs)

`ID` identifies a node of a Merkle tree: whole bytes in `path`, a partial
byte `last` whose upper `bits` bits are significant, the rest masked to
zero.  Bytes are Nat values below 256.  The panicking constructors return
Option, with `none` modelling the panic. -/

structure ID where
  path : List Nat
  last : Nat
  bits : Nat
deriving DecidableEq, Repr

instance : Inhabited ID := ⟨⟨[], 0, 0⟩⟩

/-- Model of `safe_shift_left` from node.rs.  The Rust loop shifts an i32 by
`shift_by % 32` per iteration; every caller passes `shift_by ≤ 8`, where the
loop body runs at most once, and casts the result to u8 at the end. -/
def safe_shift_left (input : Nat) (shift_by : Nat) : Nat :=
  (input <<< (shift_by % 32)) % 256

/-- The masked last byte computed inside `ID::new_masked_id`: the upper
`bits` bits of `last` are kept and the lower `8 - bits` bits are unset.
In the source, `last &= !new_byte` on u8; bitwise NOT on u8 is
`255 - new_byte`. -/
def mask_last (last : Nat) (bits : Nat) : Nat :=
  let shift := safe_shift_left 1 (8 - bits)
  let new_byte := if shift = 0 then 255 else shift - 1
  Nat.land last (255 - new_byte)

/-- Model of `ID::new_masked_id`: constructs an ID with its canonical-encoding
invariant, masking the last byte. -/
def new_masked_id (path : List Nat) (last : Nat) (bits : Nat) : ID :=
  ⟨path, mask_last last bits, bits⟩

/-- Model of `split` from node.rs: number of full bytes and number of tail bits of an
ID with the given number of bits. -/
def split (bits : Nat) : Nat × Nat :=
  ((bits - 1) / 8, 1 + (bits - 1) % 8)

/-- Model of `ID::new_id`: an ID from path bytes truncated to `bits` bits; the Rust
code panics (modelled as `none`) if `bits` exceeds the bits available. -/
def new_id (path : List Nat) (bits : Nat) : Option ID :=
  if bits = 0 then some default
  else if bits > path.length * 8 then none
  else
    let bytes := (split bits).1
    let tail_bits := (split bits).2
    some (new_masked_id (path.take bytes) (path.getD bytes 0) tail_bits)

/-- Model of `ID::new_id_with_last`: path bytes plus an explicit partial byte; panics
(`none`) if `bits > 8`, or if `bits = 0` with a non-empty path. -/
def new_id_with_last (path : List Nat) (last : Nat) (bits : Nat) : Option ID :=
  if bits > 8 then none
  else if bits = 0 ∧ path ≠ [] then none
  else some (new_masked_id path last bits)

/-- Model of `ID::bit_length`. -/
def ID.bit_length (n : ID) : Nat := n.path.length * 8 + n.bits

/-- Model of `ID::prefix` (named `prefix_bits` here because `prefix` is a reserved
word in Lean): the first `bits` bits of the ID; panics (`none`) if `bits`
exceeds the bit length. -/
def ID.prefix_bits (n : ID) (bits : Nat) : Option ID :=
  if bits = 0 then some default
  else if bits > n.bit_length then none
  else
    let bytes := (split bits).1
    let tail_bits := (split bits).2
    let last := if bytes ≠ n.path.length then n.path.getD bytes 0 else n.last
    some (new_masked_id (n.path.take bytes) last tail_bits)

/-- Well-formedness of an ID: exactly the invariants stated next to the
field definitions in node.rs (bytes are bytes; `1 ≤ bits ≤ 8` or `bits = 0`
for the empty ID; the lower `8 - bits` bits of `last` are unset). -/
def ID.wf (n : ID) : Prop :=
  n.bits ≤ 8 ∧ n.last < 256 ∧ n.last % 2 ^ (8 - n.bits) = 0 ∧
    (n.bits = 0 → n.path = []) ∧ ∀ b ∈ n.path, b < 256

instance (n : ID) : Decidable n.wf := by
  unfold ID.wf; infer_instance

/-- The logical bit string of an ID: the bits of the path bytes followed by
the significant upper bits of the last byte. -/
def ID.toBits (n : ID) : List Bool :=
  bytesBits n.path ++ (byteBits n.last).take n.bits

/-! ### Byte-level facts, settled by evaluation over all bytes -/

set_option maxRecDepth 100000

theorem bitsVal_byteBits : ∀ x < 256, bitsVal (byteBits x) = x := by decide

theorem mask_last_mod : ∀ x < 256, ∀ t < 8,
    mask_last x (t + 1) % 2 ^ (7 - t) = 0 := by decide

theorem mask_last_take : ∀ x < 256, ∀ t < 8,
    (byteBits (mask_last x (t + 1))).take (t + 1) = (byteBits x).take (t + 1) := by
  decide

theorem mask_last_lt : ∀ x < 256, ∀ t < 8, mask_last x (t + 1) < 256 := by decide

theorem mask_last_of_masked : ∀ x < 256, ∀ t < 8,
    x % 2 ^ (7 - t) = 0 → mask_last x (t + 1) = x := by decide

theorem masked_val : ∀ x < 256, ∀ t < 8,
    x % 2 ^ (7 - t) = 0 → bitsVal ((byteBits x).take (t + 1)) * 2 ^ (7 - t) = x := by
  decide

theorem mask_last_zero (x : Nat) : mask_last x 0 = 0 := by
  simp only [mask_last, safe_shift_left]
  norm_num
  exact Nat.and_zero x

/-- Restatement of the byte-level facts for a tail-bit count `1 ≤ b ≤ 8`. -/
theorem mask_last_facts (x b : Nat) (hx : x < 256) (hb1 : 1 ≤ b) (hb8 : b ≤ 8) :
    mask_last x b % 2 ^ (8 - b) = 0 ∧ mask_last x b < 256 ∧
      (byteBits (mask_last x b)).take b = (byteBits x).take b := by
  obtain ⟨t, rfl⟩ : ∃ t, b = t + 1 := ⟨b - 1, by omega⟩
  have h7 : 8 - (t + 1) = 7 - t := by omega
  exact ⟨h7 ▸ mask_last_mod x hx t (by omega), mask_last_lt x hx t (by omega),
    mask_last_take x hx t (by omega)⟩

theorem masked_val_restate (x b : Nat) (hx : x < 256) (hb1 : 1 ≤ b) (hb8 : b ≤ 8)
    (hm : x % 2 ^ (8 - b) = 0) :
    bitsVal ((byteBits x).take b) * 2 ^ (8 - b) = x := by
  obtain ⟨t, rfl⟩ : ∃ t, b = t + 1 := ⟨b - 1, by omega⟩
  have h7 : 8 - (t + 1) = 7 - t := by omega
  rw [h7] at hm ⊢
  exact masked_val x hx t (by omega) hm

/-! ### Structural lemmas about bytes, bit streams and IDs -/

theorem bytesBits_cons (c : Nat) (rest : List Nat) :
    bytesBits (c :: rest) = byteBits c ++ bytesBits rest := rfl

theorem bytesBits_length (bs : List Nat) : (bytesBits bs).length = 8 * bs.length := by
  induction bs with
  | nil => rfl
  | cons c rest ih =>
    simp only [bytesBits_cons, List.length_append, byteBits_length, ih,
      List.length_cons]
    ring

theorem bytesBits_inj (p q : List Nat) (hp : ∀ b ∈ p, b < 256) (hq : ∀ b ∈ q, b < 256)
    (hlen : p.length = q.length) (h : bytesBits p = bytesBits q) : p = q := by
  induction p generalizing q with
  | nil => cases q with
    | nil => rfl
    | cons c rest => simp at hlen
  | cons c rest ih =>
    cases q with
    | nil => simp at hlen
    | cons d qrest =>
      simp only [List.length_cons, Nat.succ.injEq] at hlen
      rw [bytesBits_cons, bytesBits_cons] at h
      have hcd : byteBits c = byteBits d ∧ bytesBits rest = bytesBits qrest :=
        List.append_inj h (byteBits_length c ▸ (byteBits_length d).symm)
      have hc : c < 256 := hp c (by simp)
      have hd : d < 256 := hq d (by simp)
      have hceq : c = d := by
        have := bitsVal_byteBits c hc
        rw [hcd.1, bitsVal_byteBits d hd] at this
        omega
      rw [hceq, ih qrest (fun b hb => hp b (List.mem_cons_of_mem _ hb))
        (fun b hb => hq b (List.mem_cons_of_mem _ hb)) hlen hcd.2]

/-- Taking `8 * k + tb` bits of a byte stream: the first `k` bytes whole,
then `tb` bits of the next byte. -/
theorem bytesBits_take (B : List Nat) (k tb : Nat) (hk : k < B.length) (htb : tb ≤ 8) :
    (bytesBits B).take (8 * k + tb) =
      bytesBits (B.take k) ++ (byteBits (B.getD k 0)).take tb := by
  induction B generalizing k with
  | nil => simp at hk
  | cons c rest ih =>
    cases k with
    | zero =>
      simp only [Nat.mul_zero, Nat.zero_add, List.take_zero, bytesBits_cons,
        List.getD_cons_zero]
      rw [List.take_append_of_le_length (by rw [byteBits_length]; exact htb)]
      rfl
    | succ k' =>
      have harith : 8 * (k' + 1) + tb = (byteBits c).length + (8 * k' + tb) := by
        rw [byteBits_length]; ring
      rw [bytesBits_cons, harith, List.take_append,
        ih k' (by simpa using hk), List.take_succ_cons, bytesBits_cons,
        List.getD_cons_succ]
      rfl

theorem toBits_length (n : ID) (hb : n.bits ≤ 8) : n.toBits.length = n.bit_length := by
  simp only [ID.toBits, ID.bit_length, List.length_append, List.length_take,
    bytesBits_length, byteBits_length]
  omega

theorem split_arith (bits : Nat) (h : 1 ≤ bits) :
    8 * ((bits - 1) / 8) + (1 + (bits - 1) % 8) = bits ∧
      1 ≤ 1 + (bits - 1) % 8 ∧ 1 + (bits - 1) % 8 ≤ 8 := by
  have hdm := Nat.div_add_mod (bits - 1) 8
  have hml : (bits - 1) % 8 < 8 := Nat.mod_lt _ (by norm_num)
  omega

theorem default_wf : (default : ID).wf := by decide

theorem default_toBits : (default : ID).toBits = [] := rfl

theorem default_bit_length : (default : ID).bit_length = 0 := rfl

/-- Facts about `new_masked_id` under the preconditions all callers meet. -/
theorem new_masked_id_spec (p : List Nat) (c tb : Nat) (hp : ∀ b ∈ p, b < 256)
    (hc : c < 256) (h1 : 1 ≤ tb) (h8 : tb ≤ 8) :
    (new_masked_id p c tb).wf ∧
      (new_masked_id p c tb).bit_length = 8 * p.length + tb ∧
      (new_masked_id p c tb).toBits = bytesBits p ++ (byteBits c).take tb := by
  obtain ⟨hmod, hlt, htake⟩ := mask_last_facts c tb hc h1 h8
  refine ⟨⟨h8, hlt, hmod, fun h0 => absurd (show tb = 0 from h0) (by omega), hp⟩, ?_, ?_⟩
  · simp only [new_masked_id, ID.bit_length]
    ring
  · simp only [new_masked_id, ID.toBits]
    rw [htake]

/-- Behaviour of `ID::new_id` on valid inputs: succeeds, produces a well-formed ID of the
requested bit length, whose logical bit string is the first `k` bits of the
byte buffer. -/
theorem new_id_spec (B : List Nat) (k : Nat) (hB : ∀ b ∈ B, b < 256)
    (hk : k ≤ 8 * B.length) :
    ∃ n, new_id B k = some n ∧ n.wf ∧ n.bit_length = k ∧
      n.toBits = (bytesBits B).take k := by
  by_cases hk0 : k = 0
  · subst hk0
    exact ⟨default, rfl, default_wf, rfl, rfl⟩
  · have h1 : 1 ≤ k := by omega
    obtain ⟨hsum, htb1, htb8⟩ := split_arith k h1
    have hblen : (k - 1) / 8 < B.length := by omega
    have hc : B.getD ((k - 1) / 8) 0 < 256 := by
      rw [List.getD_eq_getElem B 0 hblen]
      exact hB _ (List.getElem_mem hblen)
    have hnew : new_id B k = some (new_masked_id (B.take ((k - 1) / 8))
        (B.getD ((k - 1) / 8) 0) (1 + (k - 1) % 8)) := by
      simp only [new_id, hk0, if_false, split]
      rw [if_neg (by omega)]
    obtain ⟨hwf, hbl, hbits⟩ := new_masked_id_spec (B.take ((k - 1) / 8))
      (B.getD ((k - 1) / 8) 0) (1 + (k - 1) % 8)
      (fun b hb => hB b (List.mem_of_mem_take hb)) hc htb1 htb8
    refine ⟨_, hnew, hwf, ?_, ?_⟩
    · rw [hbl, List.length_take, Nat.min_eq_left (Nat.le_of_lt hblen)]
      omega
    · rw [hbits, ← bytesBits_take B ((k - 1) / 8) (1 + (k - 1) % 8) hblen htb8, hsum]

/-- Behaviour of `ID::prefix` on valid inputs: succeeds, produces a well-formed ID of the
requested bit length, whose logical bit string is the prefix of the
original bit string. -/
theorem prefix_bits_spec (n : ID) (L : Nat) (hwf : n.wf) (hL : L ≤ n.bit_length) :
    ∃ p, n.prefix_bits L = some p ∧ p.wf ∧ p.bit_length = L ∧
      p.toBits = n.toBits.take L := by
  obtain ⟨hb8, hlast, hmask, hb0, hpath⟩ := hwf
  by_cases hL0 : L = 0
  · subst hL0
    exact ⟨default, rfl, default_wf, rfl, rfl⟩
  · have h1 : 1 ≤ L := by omega
    obtain ⟨hsum, htb1, htb8⟩ := split_arith L h1
    have hbl : n.bit_length = n.path.length * 8 + n.bits := rfl
    have hble : (L - 1) / 8 ≤ n.path.length := by omega
    by_cases hcase : (L - 1) / 8 = n.path.length
    · -- the prefix ends inside the partial byte
      have htbbits : 1 + (L - 1) % 8 ≤ n.bits := by omega
      have hnew : n.prefix_bits L =
          some (new_masked_id (n.path.take ((L - 1) / 8)) n.last (1 + (L - 1) % 8)) := by
        simp only [ID.prefix_bits, hL0, if_false, split]
        rw [if_neg (by omega), if_neg (not_not_intro hcase)]
      obtain ⟨hwf2, hbl2, hbits2⟩ := new_masked_id_spec (n.path.take ((L - 1) / 8))
        n.last (1 + (L - 1) % 8)
        (fun b hb => hpath b (List.mem_of_mem_take hb)) hlast htb1 htb8
      refine ⟨_, hnew, hwf2, ?_, ?_⟩
      · rw [hbl2, List.length_take, Nat.min_eq_left hble]
        omega
      · rw [hbits2, hcase, List.take_length]
        have hgoal : n.toBits.take L =
            bytesBits n.path ++ (byteBits n.last).take (1 + (L - 1) % 8) := by
          obtain ⟨tb, htb⟩ : ∃ tb, tb = 1 + (L - 1) % 8 := ⟨_, rfl⟩
          have hLdec : L = (bytesBits n.path).length + tb := by
            rw [bytesBits_length]; omega
          rw [← htb, ID.toBits, hLdec, List.take_append, List.take_take,
            Nat.min_eq_left (by omega)]
        rw [hgoal]
    · -- the prefix ends inside the path bytes
      have hblt : (L - 1) / 8 < n.path.length := by omega
      have hc : n.path.getD ((L - 1) / 8) 0 < 256 := by
        rw [List.getD_eq_getElem n.path 0 hblt]
        exact hpath _ (List.getElem_mem hblt)
      have hnew : n.prefix_bits L = some (new_masked_id (n.path.take ((L - 1) / 8))
          (n.path.getD ((L - 1) / 8) 0) (1 + (L - 1) % 8)) := by
        simp only [ID.prefix_bits, hL0, if_false, split]
        rw [if_neg (by omega), if_pos hcase]
      obtain ⟨hwf2, hbl2, hbits2⟩ := new_masked_id_spec (n.path.take ((L - 1) / 8))
        (n.path.getD ((L - 1) / 8) 0) (1 + (L - 1) % 8)
        (fun b hb => hpath b (List.mem_of_mem_take hb)) hc htb1 htb8
      refine ⟨_, hnew, hwf2, ?_, ?_⟩
      · rw [hbl2, List.length_take, Nat.min_eq_left hble]
        omega
      · rw [hbits2, ← bytesBits_take n.path ((L - 1) / 8) (1 + (L - 1) % 8) hblt htb8,
          hsum, ID.toBits, List.take_append_of_le_length]
        rw [bytesBits_length]
        omega

/-- The logical bit string of a well-formed ID determines the ID: the
canonical masking makes structural equality decide logical equality. -/
theorem toBits_inj (a b : ID) (ha : a.wf) (hb : b.wf) (h : a.toBits = b.toBits) :
    a = b := by
  obtain ⟨ha8, halast, hamask, ha0, hapath⟩ := ha
  obtain ⟨hb8, hblast, hbmask, hb0, hbpath⟩ := hb
  have hlen : a.bit_length = b.bit_length := by
    rw [← toBits_length a ha8, ← toBits_length b hb8, h]
  simp only [ID.bit_length] at hlen
  have hdec : a.path.length = b.path.length ∧ a.bits = b.bits := by
    rcases Nat.eq_zero_or_pos a.bits with haz | hap
    · have hpa : a.path = [] := ha0 haz
      have : b.path.length * 8 + b.bits = 0 := by rw [← hlen, hpa, haz]; simp
      have hbz : b.bits = 0 := by omega
      have hpb : b.path = [] := hb0 hbz
      rw [hpa, hpb, haz, hbz]; exact ⟨rfl, rfl⟩
    · rcases Nat.eq_zero_or_pos b.bits with hbz | hbp
      · have hpb : b.path = [] := hb0 hbz
        have : a.path.length * 8 + a.bits = 0 := by rw [hlen, hpb, hbz]; simp
        omega
      · constructor <;> omega
  obtain ⟨hplen, hbits⟩ := hdec
  have hsplit : bytesBits a.path = bytesBits b.path ∧
      (byteBits a.last).take a.bits = (byteBits b.last).take b.bits := by
    apply List.append_inj h
    rw [bytesBits_length, bytesBits_length, hplen]
  have hpatheq : a.path = b.path :=
    bytesBits_inj a.path b.path hapath hbpath hplen hsplit.1
  have hlasteq : a.last = b.last := by
    rcases Nat.eq_zero_or_pos a.bits with haz | hap
    · have h1 : a.last = 0 := by
        rw [haz] at hamask
        norm_num at hamask
        omega
      have h2 : b.last = 0 := by
        rw [← hbits, haz] at hbmask
        norm_num at hbmask
        omega
      rw [h1, h2]
    · have hv1 := masked_val_restate a.last a.bits halast hap ha8 hamask
      have hv2 := masked_val_restate b.last b.bits hblast (hbits ▸ hap) hb8 hbmask
      rw [hsplit.2, hbits] at hv1
      omega
  cases a; cases b
  simp_all

/-! ## Ordering of IDs and Nodes

Modelled from the spec: the comparison (Ord) implementation for ID is not
present under src/ (node/mod.rs delegates `Node::cmp` to `ID::cmp`, whose
derive is missing); per the spec, "Equality/ordering: structural, derived
directly from the canonical byte+partial-byte+bit-count triple" and
"Comparison order is lexicographic over the canonical encoding".  This is
the standard derived lexicographic order on the field triple
(path, last, bits), with byte lists compared lexicographically. -/

/-- Lexicographic comparison of byte lists (the derived Ord of a byte
sequence: element-wise, a strict prefix compares below). -/
def cmpList : List Nat → List Nat → Ordering
  | [], [] => .eq
  | [], _ :: _ => .lt
  | _ :: _, [] => .gt
  | a :: as, b :: bs =>
    if a < b then .lt else if b < a then .gt else cmpList as bs

/-- Comparison of two machine integers. -/
def cmpNat (x y : Nat) : Ordering :=
  if x < y then .lt else if y < x then .gt else .eq

/-- Modelled from the spec: structural comparison of IDs, field by field
(path, then last, then bits). -/
def ID.cmp (a b : ID) : Ordering :=
  (cmpList a.path b.path).then ((cmpNat a.last b.last).then (cmpNat a.bits b.bits))

/-! ## Node (crates/smt/src/node/mod.rs)

A Node pairs an ID with a 32-byte hash; the hash is modelled as a byte
list.  Node ordering delegates entirely to the ID ordering, as in the
source `impl Ord for Node`. -/

structure Node where
  id : ID
  hash : List Nat
deriving DecidableEq

/-- Model of `Node::cmp` (node/mod.rs): delegates to the ID comparison. -/
def Node.cmp (a b : Node) : Ordering := a.id.cmp b.id

/-- The non-strict order induced by `Node::cmp`, as used by
`sort_unstable`. -/
def nodeLe (a b : Node) : Prop := Node.cmp a b ≠ .gt

/-- The strict order induced by `Node::cmp`. -/
def nodeLt (a b : Node) : Prop := Node.cmp a b = .lt

instance : DecidableRel nodeLe := fun a b => by unfold nodeLe; infer_instance

instance : DecidableRel nodeLt := fun a b => by unfold nodeLt; infer_instance

/-! ### Order lemmas -/

theorem then_lt_iff (o p : Ordering) :
    o.then p = .lt ↔ o = .lt ∨ (o = .eq ∧ p = .lt) := by
  cases o <;> simp [Ordering.then]

theorem then_eq_iff (o p : Ordering) : o.then p = .eq ↔ o = .eq ∧ p = .eq := by
  cases o <;> simp [Ordering.then]

theorem then_gt_iff (o p : Ordering) :
    o.then p = .gt ↔ o = .gt ∨ (o = .eq ∧ p = .gt) := by
  cases o <;> simp [Ordering.then]

theorem cmpNat_lt_iff (x y : Nat) : cmpNat x y = .lt ↔ x < y := by
  unfold cmpNat
  split_ifs <;> simp <;> omega

theorem cmpNat_eq_iff (x y : Nat) : cmpNat x y = .eq ↔ x = y := by
  unfold cmpNat
  split_ifs <;> simp <;> omega

theorem cmpNat_gt_iff (x y : Nat) : cmpNat x y = .gt ↔ y < x := by
  unfold cmpNat
  split_ifs <;> simp <;> omega

theorem cmpList_eq_iff (p q : List Nat) : cmpList p q = .eq ↔ p = q := by
  induction p generalizing q with
  | nil => cases q <;> simp [cmpList]
  | cons a as ih =>
    cases q with
    | nil => simp [cmpList]
    | cons b bs =>
      simp only [cmpList, List.cons.injEq]
      split_ifs with h1 h2
      · constructor
        · intro hc; cases hc
        · intro hc; omega
      · constructor
        · intro hc; cases hc
        · intro hc; omega
      · have hab : a = b := by omega
        simp [hab, ih bs]

theorem cmpList_swap_eq (p q : List Nat) : cmpList q p = (cmpList p q).swap := by
  induction p generalizing q with
  | nil => cases q <;> rfl
  | cons a as ih =>
    cases q with
    | nil => rfl
    | cons b bs =>
      simp only [cmpList]
      rcases Nat.lt_trichotomy a b with h | h | h
      · rw [if_neg (by omega : ¬ b < a), if_pos h, if_pos h]
        rfl
      · subst h
        have h2 : ¬ a < a := by omega
        rw [if_neg h2, if_neg h2, if_neg h2, if_neg h2]
        exact ih bs
      · rw [if_pos h, if_neg (by omega : ¬ a < b), if_pos h]
        rfl

theorem cmpList_gt_iff_swap (p q : List Nat) :
    cmpList p q = .gt ↔ cmpList q p = .lt := by
  rw [cmpList_swap_eq q p]
  cases hc : cmpList q p <;> simp [Ordering.swap]

theorem cmpList_lt_trans {p q r : List Nat} (h1 : cmpList p q = .lt)
    (h2 : cmpList q r = .lt) : cmpList p r = .lt := by
  induction p generalizing q r with
  | nil =>
    cases r with
    | nil =>
      cases q with
      | nil => cases h1
      | cons b bs => cases h2
    | cons c cs => rfl
  | cons a as ih =>
    cases q with
    | nil => cases h1
    | cons b bs =>
      cases r with
      | nil => cases h2
      | cons c cs =>
        simp only [cmpList] at h1 h2 ⊢
        split_ifs at h1 h2 ⊢ <;>
          first
          | rfl
          | exact ih h1 h2
          | exact absurd h1 (by decide)
          | exact absurd h2 (by decide)
          | (exfalso; omega)

/-- The structural ID order, written out: path first, then last, then bits. -/
theorem ID.cmp_lt_iff (a b : ID) :
    ID.cmp a b = .lt ↔ cmpList a.path b.path = .lt ∨
      (a.path = b.path ∧ (a.last < b.last ∨ (a.last = b.last ∧ a.bits < b.bits))) := by
  unfold ID.cmp
  rw [then_lt_iff, then_lt_iff, cmpList_eq_iff, cmpNat_lt_iff, cmpNat_eq_iff,
    cmpNat_lt_iff]

theorem ID.cmp_eq_iff (a b : ID) : ID.cmp a b = .eq ↔ a = b := by
  unfold ID.cmp
  rw [then_eq_iff, then_eq_iff, cmpList_eq_iff, cmpNat_eq_iff, cmpNat_eq_iff]
  constructor
  · rintro ⟨h1, h2, h3⟩
    cases a; cases b; simp_all
  · intro h; subst h; exact ⟨rfl, rfl, rfl⟩

theorem ID.cmp_gt_iff_swap (a b : ID) : ID.cmp a b = .gt ↔ ID.cmp b a = .lt := by
  unfold ID.cmp
  rw [then_gt_iff, then_gt_iff, then_lt_iff, then_lt_iff, cmpList_gt_iff_swap,
    cmpList_eq_iff, cmpList_eq_iff, cmpNat_gt_iff, cmpNat_gt_iff, cmpNat_eq_iff,
    cmpNat_eq_iff, cmpNat_lt_iff, cmpNat_lt_iff]
  constructor
  · rintro (h | ⟨h1, h2⟩)
    · exact Or.inl h
    · exact Or.inr ⟨h1.symm, by omega⟩
  · rintro (h | ⟨h1, h2⟩)
    · exact Or.inl h
    · exact Or.inr ⟨h1.symm, by omega⟩

theorem ID.cmp_lt_trans {a b c : ID} (h1 : ID.cmp a b = .lt) (h2 : ID.cmp b c = .lt) :
    ID.cmp a c = .lt := by
  rw [ID.cmp_lt_iff] at h1 h2 ⊢
  rcases h1 with h1 | ⟨hp1, h1⟩ <;> rcases h2 with h2 | ⟨hp2, h2⟩
  · exact Or.inl (cmpList_lt_trans h1 h2)
  · exact Or.inl (hp2 ▸ h1)
  · exact Or.inl (hp1 ▸ h2)
  · exact Or.inr ⟨hp1.trans hp2, by omega⟩

theorem ID.cmp_self (a : ID) : ID.cmp a a = .eq := (ID.cmp_eq_iff a a).mpr rfl

theorem ID.cmp_cases (a b : ID) :
    ID.cmp a b = .lt ∨ ID.cmp a b = .eq ∨ ID.cmp a b = .gt := by
  rcases ID.cmp a b <;> simp

theorem Node.cmp_eq_iff_id (a b : Node) : Node.cmp a b = .eq ↔ a.id = b.id :=
  ID.cmp_eq_iff a.id b.id

theorem nodeLt_trans {a b c : Node} (h1 : nodeLt a b) (h2 : nodeLt b c) :
    nodeLt a c := ID.cmp_lt_trans h1 h2

theorem nodeLe_total (a b : Node) : nodeLe a b ∨ nodeLe b a := by
  unfold nodeLe Node.cmp
  by_cases h : ID.cmp a.id b.id = .gt
  · right
    rw [ID.cmp_gt_iff_swap] at h
    rw [h]
    intro hc; cases hc
  · exact Or.inl h

theorem nodeLe_trans {a b c : Node} (h1 : nodeLe a b) (h2 : nodeLe b c) :
    nodeLe a c := by
  unfold nodeLe Node.cmp at h1 h2 ⊢
  rcases ID.cmp_cases a.id b.id with hab | hab | hab
  · rcases ID.cmp_cases b.id c.id with hbc | hbc | hbc
    · rw [ID.cmp_lt_trans hab hbc]; intro hc; cases hc
    · rw [ID.cmp_eq_iff] at hbc
      rw [← hbc, hab]; intro hc; cases hc
    · exact absurd hbc h2
  · rw [ID.cmp_eq_iff] at hab
    rw [hab]; exact h2
  · exact absurd hab h1

/-- Relation of `nodeLe` and `nodeLt` to each other. -/
theorem nodeLe_iff (a b : Node) : nodeLe a b ↔ nodeLt a b ∨ a.id = b.id := by
  unfold nodeLe nodeLt Node.cmp
  rcases hc : ID.cmp a.id b.id with _ | _ | _
  · simp
  · rw [ID.cmp_eq_iff] at hc
    simp [hc]
  · constructor
    · intro h; exact absurd rfl h
    · rintro (h | h)
      · cases h
      · rw [h, ID.cmp_self] at hc
        cases hc

instance : IsTotal Node nodeLe := ⟨nodeLe_total⟩

instance : IsTrans Node nodeLe := ⟨fun _ _ _ => nodeLe_trans⟩

/-! ### The structural order against the numeric value of the bit string -/

theorem pos_lt_iff (A B s t K : Nat) (hs : s < K) (ht : t < K) :
    A * K + s < B * K + t ↔ A < B ∨ (A = B ∧ s < t) := by
  constructor
  · intro h
    rcases Nat.lt_trichotomy A B with h1 | h1 | h1
    · exact Or.inl h1
    · subst h1; right; exact ⟨rfl, by omega⟩
    · exfalso
      have hm : (B + 1) * K ≤ A * K := Nat.mul_le_mul_right K h1
      have hexp : (B + 1) * K = B * K + K := by ring
      omega
  · rintro (h | ⟨rfl, h⟩)
    · have hm : (A + 1) * K ≤ B * K := Nat.mul_le_mul_right K h
      have hexp : (A + 1) * K = A * K + K := by ring
      omega
    · omega

theorem pos_eq_iff (A B s t K : Nat) (hs : s < K) (ht : t < K) :
    A * K + s = B * K + t ↔ A = B ∧ s = t := by
  constructor
  · intro h
    rcases Nat.lt_trichotomy A B with h1 | h1 | h1
    · exfalso
      have hm : (A + 1) * K ≤ B * K := Nat.mul_le_mul_right K h1
      have hexp : (A + 1) * K = A * K + K := by ring
      omega
    · subst h1; exact ⟨rfl, by omega⟩
    · exfalso
      have hm : (B + 1) * K ≤ A * K := Nat.mul_le_mul_right K h1
      have hexp : (B + 1) * K = B * K + K := by ring
      omega
  · rintro ⟨rfl, rfl⟩; rfl

theorem cmpList_lt_iff_val (p q : List Nat) (hp : ∀ b ∈ p, b < 256)
    (hq : ∀ b ∈ q, b < 256) (hlen : p.length = q.length) :
    cmpList p q = .lt ↔ bitsVal (bytesBits p) < bitsVal (bytesBits q) := by
  induction p generalizing q with
  | nil =>
    cases q with
    | nil => simp [cmpList, bytesBits]
    | cons b bs => simp at hlen
  | cons a as ih =>
    cases q with
    | nil => simp at hlen
    | cons b bs =>
      simp only [List.length_cons, Nat.succ.injEq] at hlen
      have ha : a < 256 := hp a (by simp)
      have hb : b < 256 := hq b (by simp)
      rw [bytesBits_cons, bytesBits_cons, bitsVal_append, bitsVal_append,
        bitsVal_byteBits a ha, bitsVal_byteBits b hb, bytesBits_length,
        bytesBits_length, hlen]
      have h1 : bitsVal (bytesBits as) < 2 ^ (8 * bs.length) := by
        have := bitsVal_lt (bytesBits as)
        rwa [bytesBits_length, hlen] at this
      have h2 : bitsVal (bytesBits bs) < 2 ^ (8 * bs.length) := by
        have := bitsVal_lt (bytesBits bs)
        rwa [bytesBits_length] at this
      rw [pos_lt_iff _ _ _ _ _ h1 h2]
      simp only [cmpList]
      split_ifs with g1 g2
      · simp [g1]
      · constructor
        · intro hc; cases hc
        · rintro (h | ⟨h, _⟩) <;> omega
      · have hab : a = b := by omega
        subst hab
        rw [ih bs (fun x hx => hp x (List.mem_cons_of_mem _ hx))
          (fun x hx => hq x (List.mem_cons_of_mem _ hx)) hlen]
        simp

theorem bytesBits_val_eq_iff (p q : List Nat) (hp : ∀ b ∈ p, b < 256)
    (hq : ∀ b ∈ q, b < 256) (hlen : p.length = q.length) :
    p = q ↔ bitsVal (bytesBits p) = bitsVal (bytesBits q) := by
  constructor
  · intro h; rw [h]
  · intro h
    refine bytesBits_inj p q hp hq hlen (bitsVal_inj _ _ ?_ h)
    rw [bytesBits_length, bytesBits_length, hlen]

/-- Equal bit lengths force equal decompositions into whole bytes and tail
bits (the decomposition is canonical). -/
theorem bit_length_decomp (a b : ID) (ha8 : a.bits ≤ 8) (ha0 : a.bits = 0 → a.path = [])
    (hb8 : b.bits ≤ 8) (hb0 : b.bits = 0 → b.path = [])
    (hlen : a.bit_length = b.bit_length) :
    a.path.length = b.path.length ∧ a.bits = b.bits := by
  simp only [ID.bit_length] at hlen
  rcases Nat.eq_zero_or_pos a.bits with haz | hap
  · have hpa : a.path = [] := ha0 haz
    rw [hpa, haz] at hlen
    simp at hlen
    have hbz : b.bits = 0 := by omega
    have hpb : b.path = [] := hb0 hbz
    rw [hpa, hpb, haz, hbz]
    exact ⟨rfl, rfl⟩
  · rcases Nat.eq_zero_or_pos b.bits with hbz | hbp
    · have hpb : b.path = [] := hb0 hbz
      rw [hpb, hbz] at hlen
      simp at hlen
      omega
    · constructor <;> omega

/-- For well-formed IDs of equal bit length, the structural comparison is
the numeric comparison of the logical bit strings. -/
theorem ID.cmp_lt_iff_val (a b : ID) (ha : a.wf) (hb : b.wf)
    (hlen : a.bit_length = b.bit_length) :
    ID.cmp a b = .lt ↔ bitsVal a.toBits < bitsVal b.toBits := by
  obtain ⟨ha8, halast, hamask, ha0, hapath⟩ := ha
  obtain ⟨hb8, hblast, hbmask, hb0, hbpath⟩ := hb
  obtain ⟨hplen, hbits⟩ := bit_length_decomp a b ha8 ha0 hb8 hb0 hlen
  have hta : bitsVal a.toBits = bitsVal (bytesBits a.path) * 2 ^ a.bits +
      bitsVal ((byteBits a.last).take a.bits) := by
    rw [ID.toBits, bitsVal_append, List.length_take, byteBits_length,
      Nat.min_eq_left ha8]
  have htb : bitsVal b.toBits = bitsVal (bytesBits b.path) * 2 ^ b.bits +
      bitsVal ((byteBits b.last).take b.bits) := by
    rw [ID.toBits, bitsVal_append, List.length_take, byteBits_length,
      Nat.min_eq_left hb8]
  have hsa : bitsVal ((byteBits a.last).take a.bits) < 2 ^ a.bits := by
    have := bitsVal_lt ((byteBits a.last).take a.bits)
    rwa [List.length_take, byteBits_length, Nat.min_eq_left ha8] at this
  have hsb : bitsVal ((byteBits b.last).take a.bits) < 2 ^ a.bits := by
    have := bitsVal_lt ((byteBits b.last).take b.bits)
    rw [List.length_take, byteBits_length, Nat.min_eq_left hb8] at this
    rwa [← hbits] at this
  rw [hta, htb, ← hbits, pos_lt_iff _ _ _ _ _ hsa hsb]
  rcases Nat.eq_zero_or_pos a.bits with haz | hap
  · -- both IDs are the empty root ID
    have hpa : a.path = [] := ha0 haz
    have hpb : b.path = [] := hb0 (hbits ▸ haz)
    have hla : a.last = 0 := by
      rw [haz] at hamask; norm_num at hamask; omega
    have hlb : b.last = 0 := by
      rw [← hbits, haz] at hbmask; norm_num at hbmask; omega
    have hab : a = b := by
      have h1 : a = ⟨[], 0, 0⟩ := by
        obtain ⟨pa, la, ba⟩ := a
        simp only [ID.mk.injEq]
        exact ⟨hpa, hla, haz⟩
      have h2 : b = ⟨[], 0, 0⟩ := by
        obtain ⟨pb, lb, bb⟩ := b
        simp only [ID.mk.injEq]
        exact ⟨hpb, hlb, hbits.symm.trans haz⟩
      rw [h1, h2]
    subst hab
    rw [ID.cmp_self]
    simp
  · have hv1 := masked_val_restate a.last a.bits halast hap ha8 hamask
    have hv2 := masked_val_restate b.last b.bits hblast (hbits ▸ hap) hb8 hbmask
    rw [← hbits] at hv2
    have hpow : 0 < 2 ^ (8 - a.bits) := Nat.pow_pos (by norm_num)
    have e3 : a.last < b.last ↔
        bitsVal ((byteBits a.last).take a.bits) <
          bitsVal ((byteBits b.last).take a.bits) := by
      constructor
      · intro h
        rw [← hv1, ← hv2] at h
        exact (Nat.mul_lt_mul_right hpow).mp h
      · intro h
        rw [← hv1, ← hv2]
        exact (Nat.mul_lt_mul_right hpow).mpr h
    have e4 : a.last = b.last ↔
        bitsVal ((byteBits a.last).take a.bits) =
          bitsVal ((byteBits b.last).take a.bits) := by
      constructor
      · intro h
        rw [← hv1, ← hv2] at h
        exact Nat.eq_of_mul_eq_mul_right hpow h
      · intro h
        rw [← hv1, ← hv2, h]
    rw [ID.cmp_lt_iff, cmpList_lt_iff_val a.path b.path hapath hbpath hplen,
      bytesBits_val_eq_iff a.path b.path hapath hbpath hplen, e3, e4]
    have e5 : ¬ a.bits < b.bits := by omega
    simp [e5]

theorem ID.cmp_le_val (a b : ID) (ha : a.wf) (hb : b.wf)
    (hlen : a.bit_length = b.bit_length) (h : ID.cmp a b ≠ .gt) :
    bitsVal a.toBits ≤ bitsVal b.toBits := by
  rcases ID.cmp_cases a b with hc | hc | hc
  · exact Nat.le_of_lt ((ID.cmp_lt_iff_val a b ha hb hlen).mp hc)
  · rw [ID.cmp_eq_iff] at hc
    rw [hc]
  · exact absurd hc h

/-! ## NodesRow (crates/smt/src/node/mod.rs) -/

structure NodesRow where
  nodes : List Node
deriving DecidableEq

/-- Model of `Vec::dedup`: removes consecutive repeated elements, by full (PartialEq)
equality of Address and hash, one representative per run.  The recursive
call is on `b :: rest` in both branches (it agrees with the call on
`a :: rest` when `a = b`), so the recursion is structural. -/
def dedup : List Node → List Node
  | [] => []
  | [a] => [a]
  | a :: b :: rest =>
    if a = b then dedup (b :: rest) else a :: dedup (b :: rest)

/-- Model of `sort_unstable`, written as insertion sort by the Node order.  Rust
promises a sorted permutation with unspecified tie order; the model fixes
one such order. -/
def sortNodes (l : List Node) : List Node := List.insertionSort nodeLe l

/-- The depth-mismatch message of `prepare` (node/mod.rs). -/
def node_depth_error (index got want : Nat) : String :=
  "node " ++ toString index ++ " invalid depth " ++ toString got ++
    ", want " ++ toString want

/-- The depth-check loop at the top of `prepare`, carrying the running
index for the error message. -/
def depth_check : List Node → Nat → Nat → Option String
  | [], _, _ => none
  | n :: rest, depth, index =>
    if n.id.bit_length ≠ depth then
      some (node_depth_error index n.id.bit_length depth)
    else depth_check rest depth (index + 1)

/-- Model of `prepare` (node/mod.rs): depth check on every element, then sort, then
dedup.  The Rust function mutates the vector in place; the model returns
the new list. -/
def prepare (nodes : List Node) (depth : Nat) : Except String (List Node) :=
  match depth_check nodes depth 0 with
  | some e => .error e
  | none => .ok (dedup (sortNodes nodes))

/-- Model of `NodesRow::try_new`: empty input is accepted as-is; otherwise the bit
length of the first element is the required depth for `prepare`. -/
def NodesRow.try_new (nodes : List Node) : Except String NodesRow :=
  match nodes with
  | [] => .ok ⟨[]⟩
  | first :: _ =>
    match prepare nodes first.id.bit_length with
    | .error e => .error e
    | .ok ns => .ok ⟨ns⟩

/-- Model of `NodesRow::in_subtree`: all nodes strictly under the given root,
checking only the first and last elements (the row is sorted).  The
`prefix` calls cannot panic at these call sites on a depth-uniform row
because the first guard has established `root_length < bit_length`. -/
def NodesRow.in_subtree (r : NodesRow) (root : ID) : Bool :=
  let root_length := root.bit_length
  match r.nodes with
  | [] => false
  | first :: rest =>
    if first.id.bit_length ≤ root_length then false
    else if first.id.prefix_bits root_length ≠ some root then false
    else
      match rest.getLast? with
      | none => true
      | some lastN => decide (lastN.id.prefix_bits root_length = some root)

/-! ## Tile (crates/smt/src/tile.rs) -/

structure Tile where
  id : ID
  leaves : NodesRow
deriving DecidableEq

/-- The sorted merge-join inside `merge`: itertools `merge_join_by` with the
update side (`Both`, `Right`) winning on equal Addresses. -/
def merge_join : List Node → List Node → List Node
  | [], u => u
  | l, [] => l
  | a :: as, b :: bs =>
    match Node.cmp a b with
    | .lt => a :: merge_join as (b :: bs)
    | .eq => b :: merge_join as bs
    | .gt => b :: merge_join (a :: as) bs
termination_by l u => l.length + u.length

/-- Model of `merge` (tile.rs, free function): merge-join the two sorted rows and
feed the result back through the validating constructor. -/
def merge (nodes : NodesRow) (update : NodesRow) : Except String NodesRow :=
  NodesRow.try_new (merge_join nodes.nodes update.nodes)

/-- The depth-mismatch message of `Tile::merge` (the apostrophe is written
as an escape). -/
def tile_depth_error (got want : Nat) : String :=
  "Updates are at depth " ++ toString got ++ " but this tile\x27s depth is " ++
    toString want

/-- The out-of-subtree message of `Tile::merge`. -/
def tile_subtree_error : String := "Updates are not entirely in this tile"

/-- Model of `Tile::merge`: returns the post-state tile together with the result.
The error branches return the tile unchanged (in Rust, `&mut self` is not
written to on those paths). -/
def Tile.merge (t : Tile) (updates : NodesRow) : Tile × Except String Unit :=
  match updates.nodes with
  | [] => (t, Except.ok ())
  | un :: _ =>
    match t.leaves.nodes with
    | [] => ({ t with leaves := updates }, Except.ok ())
    | tn :: _ =>
      let got := un.id.bit_length
      let want := tn.id.bit_length
      if got ≠ want then (t, Except.error (tile_depth_error got want))
      else if !(updates.in_subtree t.id) then (t, Except.error tile_subtree_error)
      else
        match Smt.merge t.leaves updates with
        | .error e => (t, Except.error e)
        | .ok m => ({ t with leaves := m }, Except.ok ())

/-! ### Lemmas about depth_check, dedup, sort and try_new -/

theorem depth_check_none_iff (l : List Node) (d i : Nat) :
    depth_check l d i = none ↔ ∀ n ∈ l, n.id.bit_length = d := by
  induction l generalizing i with
  | nil => simp [depth_check]
  | cons n rest ih =>
    simp only [depth_check]
    by_cases h : n.id.bit_length = d
    · rw [if_neg (not_not_intro h)]
      rw [ih (i + 1)]
      constructor
      · intro hall m hm
        rcases List.mem_cons.mp hm with rfl | hm
        · exact h
        · exact hall m hm
      · intro hall m hm
        exact hall m (List.mem_cons_of_mem _ hm)
    · rw [if_pos h]
      constructor
      · intro hc; cases hc
      · intro hall
        exact absurd (hall n (by simp)) h

theorem depth_check_first_fail (l : List Node) (d : Nat) :
    ∀ (i j : Nat) (m : Node), l[j]? = some m →
      (∀ k, k < j → ∀ m', l[k]? = some m' → m'.id.bit_length = d) →
      m.id.bit_length ≠ d →
      depth_check l d i = some (node_depth_error (i + j) m.id.bit_length d) := by
  induction l with
  | nil => intro i j m hm; simp at hm
  | cons n rest ih =>
    intro i j m hm hbefore hbad
    cases j with
    | zero =>
      simp only [List.getElem?_cons_zero, Option.some.injEq] at hm
      subst hm
      simp only [depth_check]
      rw [if_pos hbad, Nat.add_zero]
    | succ j' =>
      have hn : n.id.bit_length = d := by
        exact hbefore 0 (by omega) n (by simp)
      simp only [depth_check]
      rw [if_neg (not_not_intro hn)]
      have hrec := ih (i + 1) j' m (by simpa using hm)
        (fun k hk m' hm' => hbefore (k + 1) (by omega) m' (by simpa using hm'))
        hbad
      have harith : i + 1 + j' = i + (j' + 1) := by omega
      rw [harith] at hrec
      exact hrec

theorem dedup_sublist (l : List Node) : (dedup l).Sublist l := by
  induction l using dedup.induct with
  | case1 => simp [dedup]
  | case2 a => simp [dedup]
  | case3 b rest ih =>
    rw [dedup, if_pos rfl]
    exact ih.trans (List.sublist_cons_self b (b :: rest))
  | case4 a b rest hab ih =>
    rw [dedup, if_neg hab]
    exact ih.cons_cons a

theorem dedup_head (l : List Node) (h : l ≠ []) : (dedup l).head? = l.head? := by
  induction l using dedup.induct with
  | case1 => exact absurd rfl h
  | case2 a => simp [dedup]
  | case3 b rest ih =>
    rw [dedup, if_pos rfl]
    exact ih (by simp)
  | case4 a b rest hab ih =>
    rw [dedup, if_neg hab]
    rfl

theorem dedup_chain_ne (l : List Node) : (dedup l).Chain' (· ≠ ·) := by
  induction l using dedup.induct with
  | case1 => simp [dedup]
  | case2 a => simp [dedup]
  | case3 b rest ih =>
    rw [dedup, if_pos rfl]
    exact ih
  | case4 a b rest hab ih =>
    rw [dedup, if_neg hab]
    rw [List.chain'_cons']
    refine ⟨?_, ih⟩
    intro y hy
    rw [dedup_head (b :: rest) (by simp)] at hy
    simp only [List.head?_cons, Option.mem_def, Option.some.injEq] at hy
    rw [← hy]
    exact hab

theorem sortNodes_perm (l : List Node) : (sortNodes l).Perm l :=
  List.perm_insertionSort nodeLe l

theorem sortNodes_sorted (l : List Node) : (sortNodes l).Pairwise nodeLe :=
  List.sorted_insertionSort nodeLe l

theorem sortNodes_eq_of_sorted (l : List Node) (h : l.Pairwise nodeLe) :
    sortNodes l = l := List.Sorted.insertionSort_eq h

/-- The invariant that rows built by the code satisfy: depth-uniform,
sorted (non-strictly) by the Node order, and no two adjacent equal nodes. -/
def row_inv (l : List Node) : Prop :=
  (∀ n ∈ l, ∀ m ∈ l, n.id.bit_length = m.id.bit_length) ∧
    l.Pairwise nodeLe ∧ l.Chain' (· ≠ ·)

theorem row_inv_nil : row_inv [] := ⟨by simp, by simp, by simp⟩

theorem prepare_ok (l : List Node) (d : Nat) (h : ∀ n ∈ l, n.id.bit_length = d) :
    prepare l d = .ok (dedup (sortNodes l)) := by
  unfold prepare
  rw [(depth_check_none_iff l d 0).mpr h]

theorem prepare_result_inv (l : List Node) (d : Nat)
    (h : ∀ n ∈ l, n.id.bit_length = d) :
    row_inv (dedup (sortNodes l)) ∧ ∀ n ∈ dedup (sortNodes l), n ∈ l := by
  have hmem : ∀ n ∈ dedup (sortNodes l), n ∈ l := fun n hn =>
    (sortNodes_perm l).mem_iff.mp ((dedup_sublist (sortNodes l)).subset hn)
  refine ⟨⟨?_, ?_, dedup_chain_ne _⟩, hmem⟩
  · intro n hn m hm
    rw [h n (hmem n hn), h m (hmem m hm)]
  · exact List.Pairwise.sublist (dedup_sublist _) (sortNodes_sorted l)

theorem try_new_nil : NodesRow.try_new [] = .ok ⟨[]⟩ := rfl

theorem prepare_error (l : List Node) (d : Nat) (e : String)
    (h : depth_check l d 0 = some e) : prepare l d = .error e := by
  unfold prepare
  rw [h]

/-- Unfolding of `try_new` on a non-empty input. -/
theorem try_new_cons (n : Node) (rest : List Node) :
    NodesRow.try_new (n :: rest) =
      (match prepare (n :: rest) n.id.bit_length with
        | .error e => .error e
        | .ok ns => Except.ok ⟨ns⟩) := rfl

theorem try_new_cons_ok (n : Node) (rest : List Node)
    (h : ∀ m ∈ n :: rest, m.id.bit_length = n.id.bit_length) :
    NodesRow.try_new (n :: rest) = .ok ⟨dedup (sortNodes (n :: rest))⟩ := by
  rw [try_new_cons, prepare_ok _ _ h]

theorem try_new_cons_error (n : Node) (rest : List Node) (j : Nat) (m : Node)
    (hj : (n :: rest)[j]? = some m)
    (hbefore : ∀ k, k < j → ∀ m', (n :: rest)[k]? = some m' →
      m'.id.bit_length = n.id.bit_length)
    (hbad : m.id.bit_length ≠ n.id.bit_length) :
    NodesRow.try_new (n :: rest) =
      .error (node_depth_error j m.id.bit_length n.id.bit_length) := by
  rw [try_new_cons,
    prepare_error _ _ _ (depth_check_first_fail (n :: rest) _ 0 j m hj hbefore hbad)]
  rw [Nat.zero_add]

/-- Every row accepted by `try_new` satisfies `row_inv`, and its elements
come from the input. -/
theorem try_new_ok_inv (l : List Node) (row : NodesRow)
    (h : NodesRow.try_new l = .ok row) :
    row_inv row.nodes ∧ ∀ n ∈ row.nodes, n ∈ l := by
  cases l with
  | nil =>
    rw [try_new_nil] at h
    cases h
    exact ⟨row_inv_nil, by simp⟩
  | cons n rest =>
    rw [try_new_cons] at h
    rcases hd : depth_check (n :: rest) n.id.bit_length 0 with _ | e
    · have huni := (depth_check_none_iff (n :: rest) n.id.bit_length 0).mp hd
      rw [prepare_ok _ _ huni] at h
      have h2 : Except.ok (⟨dedup (sortNodes (n :: rest))⟩ : NodesRow) =
          Except.ok row := h
      cases h2
      exact prepare_result_inv (n :: rest) n.id.bit_length huni
    · rw [prepare_error _ _ e hd] at h
      cases h

/-! ### Lemmas about the merge-join -/

theorem merge_join_nil (u : List Node) : merge_join [] u = u := by
  cases u <;> simp [merge_join]

theorem merge_join_nil_right (l : List Node) : merge_join l [] = l := by
  cases l <;> simp [merge_join]

theorem merge_join_cons_lt {a b : Node} (as bs : List Node)
    (hcmp : Node.cmp a b = .lt) :
    merge_join (a :: as) (b :: bs) = a :: merge_join as (b :: bs) := by
  simp [merge_join, hcmp]

theorem merge_join_cons_eq {a b : Node} (as bs : List Node)
    (hcmp : Node.cmp a b = .eq) :
    merge_join (a :: as) (b :: bs) = b :: merge_join as bs := by
  simp [merge_join, hcmp]

theorem merge_join_cons_gt {a b : Node} (as bs : List Node)
    (hcmp : Node.cmp a b = .gt) :
    merge_join (a :: as) (b :: bs) = b :: merge_join (a :: as) bs := by
  simp [merge_join, hcmp]

/-- Every element of the merge-join comes from one of the inputs. -/
theorem merge_join_mem (l u : List Node) (n : Node) (h : n ∈ merge_join l u) :
    n ∈ l ∨ n ∈ u := by
  induction l, u using merge_join.induct with
  | case1 u => rw [merge_join_nil] at h; exact Or.inr h
  | case2 l hne => rw [merge_join_nil_right] at h; exact Or.inl h
  | case3 a as b bs hcmp ih =>
    rw [merge_join_cons_lt as bs hcmp] at h
    rcases List.mem_cons.mp h with rfl | h
    · exact Or.inl (List.mem_cons_self _ _)
    · rcases ih h with h | h
      · exact Or.inl (List.mem_cons_of_mem _ h)
      · exact Or.inr h
  | case4 a as b bs hcmp ih =>
    rw [merge_join_cons_eq as bs hcmp] at h
    rcases List.mem_cons.mp h with rfl | h
    · exact Or.inr (List.mem_cons_self _ _)
    · rcases ih h with h | h
      · exact Or.inl (List.mem_cons_of_mem _ h)
      · exact Or.inr (List.mem_cons_of_mem _ h)
  | case5 a as b bs hcmp ih =>
    rw [merge_join_cons_gt as bs hcmp] at h
    rcases List.mem_cons.mp h with rfl | h
    · exact Or.inr (List.mem_cons_self _ _)
    · rcases ih h with h | h
      · exact Or.inl h
      · exact Or.inr (List.mem_cons_of_mem _ h)

/-- The merge-join of two strictly sorted rows is strictly sorted. -/
theorem merge_join_pairwise (l u : List Node) :
    l.Pairwise nodeLt → u.Pairwise nodeLt → (merge_join l u).Pairwise nodeLt := by
  induction l, u using merge_join.induct with
  | case1 u =>
    intro _ hu
    rw [merge_join_nil]; exact hu
  | case2 l _ =>
    intro hl _
    rw [merge_join_nil_right]; exact hl
  | case3 a as b bs hcmp ih =>
    intro hl hu
    rw [merge_join_cons_lt as bs hcmp]
    rw [List.pairwise_cons] at hl ⊢
    refine ⟨?_, ih hl.2 hu⟩
    intro n hn
    rcases merge_join_mem as (b :: bs) n hn with h | h
    · exact hl.1 n h
    · rcases List.mem_cons.mp h with rfl | h
      · exact hcmp
      · exact nodeLt_trans hcmp ((List.pairwise_cons.mp hu).1 n h)
  | case4 a as b bs hcmp ih =>
    intro hl hu
    rw [merge_join_cons_eq as bs hcmp]
    have hl' := List.pairwise_cons.mp hl
    have hu' := List.pairwise_cons.mp hu
    rw [List.pairwise_cons]
    refine ⟨?_, ih hl'.2 hu'.2⟩
    intro n hn
    rcases merge_join_mem as bs n hn with h | h
    · have hid : a.id = b.id := (Node.cmp_eq_iff_id a b).mp hcmp
      have han := hl'.1 n h
      unfold nodeLt Node.cmp at han ⊢
      rw [← hid]
      exact han
    · exact hu'.1 n h
  | case5 a as b bs hcmp ih =>
    intro hl hu
    rw [merge_join_cons_gt as bs hcmp]
    have hba : nodeLt b a := (ID.cmp_gt_iff_swap a.id b.id).mp hcmp
    have hu' := List.pairwise_cons.mp hu
    rw [List.pairwise_cons]
    refine ⟨?_, ih hl hu'.2⟩
    intro n hn
    rcases merge_join_mem (a :: as) bs n hn with h | h
    · rcases List.mem_cons.mp h with rfl | h
      · exact hba
      · exact nodeLt_trans hba ((List.pairwise_cons.mp hl).1 n h)
    · exact hu'.1 n h

/-- Semantics of the merge-join on strictly sorted rows: an Address present
in the update keeps the update node; an Address present only in the
original keeps the original node. -/
theorem merge_join_mem_iff (l u : List Node) :
    l.Pairwise nodeLt → u.Pairwise nodeLt → ∀ n : Node,
      (n ∈ merge_join l u ↔ n ∈ u ∨ (n ∈ l ∧ ∀ m ∈ u, m.id ≠ n.id)) := by
  induction l, u using merge_join.induct with
  | case1 u =>
    intro _ _ n
    rw [merge_join_nil]
    simp
  | case2 l _ =>
    intro _ _ n
    rw [merge_join_nil_right]
    simp
  | case3 a as b bs hcmp ih =>
    intro hl hu n
    rw [merge_join_cons_lt as bs hcmp]
    have hl' := List.pairwise_cons.mp hl
    have ih' := ih hl'.2 hu n
    constructor
    · intro h
      rcases List.mem_cons.mp h with rfl | h
      · right
        refine ⟨List.mem_cons_self _ _, ?_⟩
        intro m hm he
        rcases List.mem_cons.mp hm with rfl | hm
        · rw [(Node.cmp_eq_iff_id n m).mpr he.symm] at hcmp
          cases hcmp
        · have h2 : nodeLt n m :=
            nodeLt_trans hcmp ((List.pairwise_cons.mp hu).1 m hm)
          unfold nodeLt at h2
          rw [(Node.cmp_eq_iff_id n m).mpr he.symm] at h2
          cases h2
      · rcases ih'.mp h with h | ⟨h1, h2⟩
        · exact Or.inl h
        · exact Or.inr ⟨List.mem_cons_of_mem _ h1, h2⟩
    · rintro (h | ⟨h1, h2⟩)
      · exact List.mem_cons_of_mem _ (ih'.mpr (Or.inl h))
      · rcases List.mem_cons.mp h1 with rfl | h1
        · exact List.mem_cons_self _ _
        · exact List.mem_cons_of_mem _ (ih'.mpr (Or.inr ⟨h1, h2⟩))
  | case4 a as b bs hcmp ih =>
    intro hl hu n
    rw [merge_join_cons_eq as bs hcmp]
    have hid : a.id = b.id := (Node.cmp_eq_iff_id a b).mp hcmp
    have hl' := List.pairwise_cons.mp hl
    have hu' := List.pairwise_cons.mp hu
    have ih' := ih hl'.2 hu'.2 n
    constructor
    · intro h
      rcases List.mem_cons.mp h with rfl | h
      · exact Or.inl (List.mem_cons_self _ _)
      · rcases ih'.mp h with h | ⟨h1, h2⟩
        · exact Or.inl (List.mem_cons_of_mem _ h)
        · right
          refine ⟨List.mem_cons_of_mem _ h1, ?_⟩
          intro m hm
          rcases List.mem_cons.mp hm with rfl | hm
          · have hn : nodeLt a n := hl'.1 n h1
            intro he
            unfold nodeLt at hn
            rw [(Node.cmp_eq_iff_id a n).mpr (hid.trans he)] at hn
            cases hn
          · exact h2 m hm
    · rintro (h | ⟨h1, h2⟩)
      · rcases List.mem_cons.mp h with rfl | h
        · exact List.mem_cons_self _ _
        · exact List.mem_cons_of_mem _ (ih'.mpr (Or.inl h))
      · rcases List.mem_cons.mp h1 with rfl | h1
        · exact absurd hid.symm (h2 b (List.mem_cons_self _ _))
        · refine List.mem_cons_of_mem _ (ih'.mpr (Or.inr ⟨h1, ?_⟩))
          intro m hm
          exact h2 m (List.mem_cons_of_mem _ hm)
  | case5 a as b bs hcmp ih =>
    intro hl hu n
    rw [merge_join_cons_gt as bs hcmp]
    have hba : nodeLt b a := (ID.cmp_gt_iff_swap a.id b.id).mp hcmp
    have hu' := List.pairwise_cons.mp hu
    have ih' := ih hl hu'.2 n
    constructor
    · intro h
      rcases List.mem_cons.mp h with rfl | h
      · exact Or.inl (List.mem_cons_self _ _)
      · rcases ih'.mp h with h | ⟨h1, h2⟩
        · exact Or.inl (List.mem_cons_of_mem _ h)
        · right
          refine ⟨h1, ?_⟩
          intro m hm
          rcases List.mem_cons.mp hm with rfl | hm
          · have hbn : nodeLt m n := by
              rcases List.mem_cons.mp h1 with rfl | h1
              · exact hba
              · exact nodeLt_trans hba ((List.pairwise_cons.mp hl).1 n h1)
            intro he
            unfold nodeLt at hbn
            rw [(Node.cmp_eq_iff_id m n).mpr he] at hbn
            cases hbn
          · exact h2 m hm
    · rintro (h | ⟨h1, h2⟩)
      · rcases List.mem_cons.mp h with rfl | h
        · exact List.mem_cons_self _ _
        · exact List.mem_cons_of_mem _ (ih'.mpr (Or.inl h))
      · refine List.mem_cons_of_mem _ (ih'.mpr (Or.inr ⟨h1, ?_⟩))
        intro m hm
        exact h2 m (List.mem_cons_of_mem _ hm)

/-! ### The subtree-containment check -/

theorem nodeLe_refl (n : Node) : nodeLe n n := by
  unfold nodeLe Node.cmp
  rw [ID.cmp_self]
  intro hc; cases hc

theorem pairwise_le_getLast (xs : List Node) (hp : xs.Pairwise nodeLe)
    (n : Node) (hn : n ∈ xs) (lastN : Node) (hlast : xs.getLast? = some lastN) :
    nodeLe n lastN := by
  induction xs with
  | nil => cases hn
  | cons x xs' ih =>
    cases xs' with
    | nil =>
      simp only [List.getLast?_singleton, Option.some.injEq] at hlast
      rcases List.mem_cons.mp hn with rfl | hn
      · rw [← hlast]; exact nodeLe_refl n
      · cases hn
    | cons y ys =>
      have hlast' : (y :: ys).getLast? = some lastN := hlast
      rcases List.mem_cons.mp hn with rfl | hn
      · exact (List.pairwise_cons.mp hp).1 lastN (List.mem_of_mem_getLast? hlast')
      · exact ih (List.pairwise_cons.mp hp).2 hn hlast'

/-- Unfolding of `in_subtree` on a non-empty row. -/
theorem in_subtree_cons (first : Node) (rest : List Node) (root : ID) :
    NodesRow.in_subtree ⟨first :: rest⟩ root =
      (if first.id.bit_length ≤ root.bit_length then false
       else if first.id.prefix_bits root.bit_length ≠ some root then false
       else
         match rest.getLast? with
         | none => true
         | some lastN =>
           decide (lastN.id.prefix_bits root.bit_length = some root)) := rfl

theorem in_subtree_nil (root : ID) : NodesRow.in_subtree ⟨[]⟩ root = false := rfl

/-- The first/last check of `in_subtree` is equivalent to the universal
check, for a well-formed, sorted, depth-uniform row. -/
theorem in_subtree_iff (l : List Node) (root : ID) (D : Nat)
    (hwf : ∀ n ∈ l, n.id.wf) (hroot : root.wf)
    (hD : ∀ n ∈ l, n.id.bit_length = D)
    (hsorted : l.Pairwise nodeLe) :
    NodesRow.in_subtree ⟨l⟩ root = true ↔
      (l ≠ [] ∧ ∀ n ∈ l, root.bit_length < n.id.bit_length ∧
        n.id.prefix_bits root.bit_length = some root) := by
  cases l with
  | nil => simp [in_subtree_nil]
  | cons first rest =>
    constructor
    · intro h
      rw [in_subtree_cons] at h
      by_cases hc1 : first.id.bit_length ≤ root.bit_length
      · rw [if_pos hc1] at h; cases h
      rw [if_neg hc1] at h
      by_cases hc2 : first.id.prefix_bits root.bit_length ≠ some root
      · rw [if_pos hc2] at h; cases h
      rw [if_neg hc2] at h
      push_neg at hc1 hc2
      refine ⟨by simp, ?_⟩
      have hfirstD : first.id.bit_length = D := hD first (by simp)
      have hrlD : root.bit_length < D := hfirstD ▸ hc1
      -- depth part holds for every element
      have hdepth : ∀ n ∈ first :: rest, root.bit_length < n.id.bit_length := by
        intro n hn
        rw [hD n hn]
        exact hrlD
      rcases hlast : rest.getLast? with _ | lastN
      · -- singleton row
        have hrest : rest = [] := List.getLast?_eq_none_iff.mp hlast
        subst hrest
        intro n hn
        rcases List.mem_cons.mp hn with rfl | hn
        · exact ⟨hdepth n (by simp), hc2⟩
        · cases hn
      · -- at least two elements: interval argument through bit-string values
        rw [hlast] at h
        have hlastpre : lastN.id.prefix_bits root.bit_length = some root :=
          of_decide_eq_true h
        have hlmem : lastN ∈ rest := List.mem_of_mem_getLast? hlast
        intro n hn
        refine ⟨hdepth n hn, ?_⟩
        rcases List.mem_cons.mp hn with rfl | hnr
        · exact hc2
        -- facts about first
        have hfw : first.id.wf := hwf first (by simp)
        have hnw : n.id.wf := hwf n hn
        have hlw : lastN.id.wf := hwf lastN (List.mem_cons_of_mem _ hlmem)
        have hnD : n.id.bit_length = D := hD n hn
        have hlD : lastN.id.bit_length = D := hD lastN (List.mem_cons_of_mem _ hlmem)
        have hrl_le : root.bit_length ≤ first.id.bit_length := le_of_lt hc1
        -- toBits of root from the first element
        obtain ⟨p1, hp1, hp1w, hp1len, hp1bits⟩ :=
          prefix_bits_spec first.id root.bit_length hfw hrl_le
        rw [hc2] at hp1
        have hp1root : p1 = root := by
          injection hp1 with h12
          exact h12.symm
        rw [hp1root] at hp1bits
        -- toBits of root from the last element
        obtain ⟨p2, hp2, hp2w, hp2len, hp2bits⟩ :=
          prefix_bits_spec lastN.id root.bit_length hlw (by omega)
        rw [hlastpre] at hp2
        have hp2root : p2 = root := by
          injection hp2 with h12
          exact h12.symm
        rw [hp2root] at hp2bits
        -- prefix of the middle element
        obtain ⟨pn, hpn, hpnw, hpnlen, hpnbits⟩ :=
          prefix_bits_spec n.id root.bit_length hnw (by omega)
        rw [hpn]
        -- value computations
        have hlen1 : first.id.toBits.length = D := by
          rw [toBits_length first.id hfw.1, hfirstD]
        have hlenn : n.id.toBits.length = D := by
          rw [toBits_length n.id hnw.1, hnD]
        have hlenl : lastN.id.toBits.length = D := by
          rw [toBits_length lastN.id hlw.1, hlD]
        have hvroot1 : bitsVal root.toBits =
            bitsVal first.id.toBits / 2 ^ (D - root.bit_length) := by
          rw [hp1bits, bitsVal_take _ _ (by omega), hlen1]
        have hvrootl : bitsVal root.toBits =
            bitsVal lastN.id.toBits / 2 ^ (D - root.bit_length) := by
          rw [hp2bits, bitsVal_take _ _ (by omega), hlenl]
        have hvn : bitsVal pn.toBits =
            bitsVal n.id.toBits / 2 ^ (D - root.bit_length) := by
          rw [hpnbits, bitsVal_take _ _ (by omega), hlenn]
        -- ordering of values
        have h1n : nodeLe first n := (List.pairwise_cons.mp hsorted).1 n hnr
        have hnl : nodeLe n lastN :=
          pairwise_le_getLast rest (List.pairwise_cons.mp hsorted).2 n hnr lastN hlast
        have hv1n : bitsVal first.id.toBits ≤ bitsVal n.id.toBits :=
          ID.cmp_le_val first.id n.id hfw hnw (by rw [hfirstD, hnD]) h1n
        have hvnl : bitsVal n.id.toBits ≤ bitsVal lastN.id.toBits :=
          ID.cmp_le_val n.id lastN.id hnw hlw (by rw [hnD, hlD]) hnl
        have hdiv1 : bitsVal root.toBits ≤ bitsVal pn.toBits := by
          rw [hvroot1, hvn]
          exact Nat.div_le_div_right hv1n
        have hdiv2 : bitsVal pn.toBits ≤ bitsVal root.toBits := by
          rw [hvrootl, hvn]
          exact Nat.div_le_div_right hvnl
        have hveq : bitsVal pn.toBits = bitsVal root.toBits := le_antisymm hdiv2 hdiv1
        -- conclude structural equality
        have hbitseq : pn.toBits = root.toBits := by
          apply bitsVal_inj _ _ _ hveq
          rw [toBits_length pn hpnw.1, toBits_length root hroot.1, hpnlen]
        rw [toBits_inj pn root hpnw hroot hbitseq]
    · rintro ⟨-, hall⟩
      rw [in_subtree_cons]
      obtain ⟨hfd, hfp⟩ := hall first (by simp)
      rw [if_neg (by omega), if_neg (not_not_intro hfp)]
      rcases hlast : rest.getLast? with _ | lastN
      · rfl
      · obtain ⟨-, hlp⟩ := hall lastN
          (List.mem_cons_of_mem _ (List.mem_of_mem_getLast? hlast))
        exact decide_eq_true hlp

/-! ### Rows that are already strictly sorted pass try_new unchanged -/

theorem nodeLt_le {a b : Node} (h : nodeLt a b) : nodeLe a b := by
  unfold nodeLt at h
  unfold nodeLe
  rw [h]
  intro hc; cases hc

theorem nodeLt_ne {a b : Node} (h : nodeLt a b) : a ≠ b := by
  intro he
  subst he
  unfold nodeLt Node.cmp at h
  rw [ID.cmp_self] at h
  cases h

theorem dedup_eq_of_chain_ne (v : List Node) : v.Chain' (· ≠ ·) → dedup v = v := by
  induction v using dedup.induct with
  | case1 => intro _; rfl
  | case2 a => intro _; rfl
  | case3 b rest ih =>
    intro h
    exact absurd rfl (List.chain'_cons.mp h).1
  | case4 a b rest hab ih =>
    intro h
    rw [dedup, if_neg hab, ih (List.chain'_cons.mp h).2]

theorem pairwise_lt_chain_ne (v : List Node) (h : v.Pairwise nodeLt) :
    v.Chain' (· ≠ ·) :=
  List.Pairwise.chain' (h.imp fun hlt => nodeLt_ne hlt)

theorem try_new_of_strict (v : List Node) (D : Nat) (hv : v.Pairwise nodeLt)
    (hD : ∀ n ∈ v, n.id.bit_length = D) :
    NodesRow.try_new v = .ok ⟨v⟩ := by
  cases v with
  | nil => rfl
  | cons n rest =>
    rw [try_new_cons_ok n rest (fun m hm => by rw [hD m hm, hD n (by simp)])]
    rw [sortNodes_eq_of_sorted _ (hv.imp fun h => nodeLt_le h),
      dedup_eq_of_chain_ne _ (pairwise_lt_chain_ne _ hv)]

/-! ### Unfoldings of Tile.merge -/

theorem merge_def (l u : List Node) :
    Smt.merge ⟨l⟩ ⟨u⟩ = NodesRow.try_new (merge_join l u) := rfl

theorem tile_merge_empty_update (t : Tile) :
    Tile.merge t ⟨[]⟩ = (t, Except.ok ()) := rfl

theorem tile_merge_into_empty (tid : ID) (un : Node) (us : List Node) :
    Tile.merge ⟨tid, ⟨[]⟩⟩ ⟨un :: us⟩ = (⟨tid, ⟨un :: us⟩⟩, Except.ok ()) := rfl

theorem tile_merge_main (tid : ID) (tn : Node) (ts : List Node) (un : Node)
    (us : List Node) :
    Tile.merge ⟨tid, ⟨tn :: ts⟩⟩ ⟨un :: us⟩ =
      (if un.id.bit_length ≠ tn.id.bit_length then
        (⟨tid, ⟨tn :: ts⟩⟩,
          Except.error (tile_depth_error un.id.bit_length tn.id.bit_length))
      else if !(NodesRow.in_subtree ⟨un :: us⟩ tid) then
        (⟨tid, ⟨tn :: ts⟩⟩, Except.error tile_subtree_error)
      else
        match Smt.merge ⟨tn :: ts⟩ ⟨un :: us⟩ with
        | .error e => (⟨tid, ⟨tn :: ts⟩⟩, Except.error e)
        | .ok m => (⟨tid, m⟩, Except.ok ())) := rfl

/-! ## The claims -/

/-- Concrete data for witnesses: a tile root "1" with leaves at depth 2. -/
def wRoot : ID := ⟨[], 128, 1⟩

def wIdA : ID := ⟨[], 128, 2⟩

def wIdB : ID := ⟨[], 192, 2⟩

def wN1 : Node := ⟨wIdA, List.replicate 32 1⟩

def wN2 : Node := ⟨wIdB, List.replicate 32 2⟩

def wN2new : Node := ⟨wIdB, List.replicate 32 3⟩

/-- C1: `Tile::merge` on a tile with non-empty leaves and a non-empty,
matching-depth, in-subtree update replaces the leaves with the sorted
merge-join by Address of old leaves and update, where for an Address in
both inputs the update node wins and an Address in exactly one input is
carried through; merging an empty update succeeds and leaves the tile
unchanged; merging into a tile with empty leaves installs the update
verbatim with no depth or subtree check. -/
theorem claim_C1 :
    (∀ t : Tile, Tile.merge t ⟨[]⟩ = (t, Except.ok ())) ∧
    (∀ (t : Tile) (u : NodesRow), t.leaves = ⟨[]⟩ →
      Tile.merge t u = ({ t with leaves := u }, Except.ok ())) ∧
    (∀ (tid : ID) (l u : List Node) (D : Nat),
      l ≠ [] → u ≠ [] →
      l.Pairwise nodeLt → u.Pairwise nodeLt →
      (∀ n ∈ l, n.id.bit_length = D) → (∀ n ∈ u, n.id.bit_length = D) →
      NodesRow.in_subtree ⟨u⟩ tid = true →
      Tile.merge ⟨tid, ⟨l⟩⟩ ⟨u⟩ = (⟨tid, ⟨merge_join l u⟩⟩, Except.ok ()) ∧
        (merge_join l u).Pairwise nodeLt ∧
        (∀ n : Node, n ∈ merge_join l u ↔
          n ∈ u ∨ (n ∈ l ∧ ∀ m ∈ u, m.id ≠ n.id))) := by
  refine ⟨tile_merge_empty_update, ?_, ?_⟩
  · intro t u hle
    obtain ⟨tid, tl⟩ := t
    have h2 : tl = ⟨[]⟩ := hle
    subst h2
    obtain ⟨unodes⟩ := u
    cases unodes with
    | nil => rfl
    | cons un us => exact tile_merge_into_empty tid un us
  · intro tid l u D hl hu hsl hsu hdl hdu hsub
    obtain ⟨tn, ts, rfl⟩ : ∃ tn ts, l = tn :: ts := by
      cases l with
      | nil => exact absurd rfl hl
      | cons a as => exact ⟨a, as, rfl⟩
    obtain ⟨un, us, rfl⟩ : ∃ un us, u = un :: us := by
      cases u with
      | nil => exact absurd rfl hu
      | cons a as => exact ⟨a, as, rfl⟩
    have hmerge : Smt.merge ⟨tn :: ts⟩ ⟨un :: us⟩ =
        .ok ⟨merge_join (tn :: ts) (un :: us)⟩ := by
      rw [merge_def]
      apply try_new_of_strict _ D (merge_join_pairwise _ _ hsl hsu)
      intro n hn
      rcases merge_join_mem _ _ n hn with h | h
      · exact hdl n h
      · exact hdu n h
    refine ⟨?_, merge_join_pairwise _ _ hsl hsu, merge_join_mem_iff _ _ hsl hsu⟩
    rw [tile_merge_main,
      if_neg (not_not_intro (by rw [hdu un (by simp), hdl tn (by simp)])),
      hsub]
    simp only [Bool.not_true]
    rw [if_neg (by simp), hmerge]

/-- C1 witness: a concrete merge through the main path. -/
theorem claim_C1_witness :
    Tile.merge ⟨wRoot, ⟨[wN1]⟩⟩ ⟨[wN2]⟩ =
      (⟨wRoot, ⟨merge_join [wN1] [wN2]⟩⟩, Except.ok ()) :=
  (claim_C1.2.2 wRoot [wN1] [wN2] 2 (by decide) (by decide) (by decide)
    (by decide) (by decide) (by decide) (by decide)).1

/-- C2: with non-empty leaves and a non-empty update, `Tile::merge` fails
and leaves the tile unchanged when (i) the depths differ, reporting both
depths, or (ii) the update is not contained in the tile subtree; the
failure is an explicit error result, never an empty or default result. -/
theorem claim_C2 :
    ∀ (tid : ID) (tn : Node) (ts : List Node) (un : Node) (us : List Node),
      (un.id.bit_length ≠ tn.id.bit_length →
        Tile.merge ⟨tid, ⟨tn :: ts⟩⟩ ⟨un :: us⟩ =
          (⟨tid, ⟨tn :: ts⟩⟩,
            Except.error (tile_depth_error un.id.bit_length tn.id.bit_length))) ∧
      (un.id.bit_length = tn.id.bit_length →
        NodesRow.in_subtree ⟨un :: us⟩ tid = false →
        Tile.merge ⟨tid, ⟨tn :: ts⟩⟩ ⟨un :: us⟩ =
          (⟨tid, ⟨tn :: ts⟩⟩, Except.error tile_subtree_error)) := by
  intro tid tn ts un us
  constructor
  · intro hne
    rw [tile_merge_main, if_pos hne]
  · intro heq hsub
    rw [tile_merge_main, if_neg (not_not_intro heq), hsub]
    simp only [Bool.not_false]
    rw [if_pos trivial]

/-- C2 witness: a depth mismatch and a subtree violation, both on concrete
tiles. -/
theorem claim_C2_witness :
    Tile.merge ⟨wRoot, ⟨[wN1]⟩⟩ ⟨[⟨⟨[], 128, 3⟩, []⟩]⟩ =
      (⟨wRoot, ⟨[wN1]⟩⟩, Except.error (tile_depth_error 3 2)) ∧
    Tile.merge ⟨wRoot, ⟨[wN1]⟩⟩ ⟨[⟨⟨[], 64, 2⟩, []⟩]⟩ =
      (⟨wRoot, ⟨[wN1]⟩⟩, Except.error tile_subtree_error) :=
  ⟨(claim_C2 wRoot wN1 [] ⟨⟨[], 128, 3⟩, []⟩ []).1 (by decide),
   (claim_C2 wRoot wN1 [] ⟨⟨[], 64, 2⟩, []⟩ []).2 (by decide) (by decide)⟩

/-- C10: once the depth and subtree checks have passed, the internal
re-validation of the merged sequence never fails: for depth-uniform rows of
equal depth, `merge` always returns ok, and the error branch after the
merge-join in `Tile::merge` is unreachable. -/
theorem claim_C10 :
    ∀ (l u : List Node) (D : Nat),
      (∀ n ∈ l, n.id.bit_length = D) → (∀ n ∈ u, n.id.bit_length = D) →
      (∃ row, Smt.merge ⟨l⟩ ⟨u⟩ = .ok row) ∧
      (∀ tid : ID, l ≠ [] → u ≠ [] → NodesRow.in_subtree ⟨u⟩ tid = true →
        (Tile.merge ⟨tid, ⟨l⟩⟩ ⟨u⟩).2 = Except.ok ()) := by
  intro l u D hdl hdu
  have hmem : ∀ n ∈ merge_join l u, n.id.bit_length = D := by
    intro n hn
    rcases merge_join_mem _ _ n hn with h | h
    · exact hdl n h
    · exact hdu n h
  have hmerge : ∃ row, Smt.merge ⟨l⟩ ⟨u⟩ = .ok row := by
    rw [merge_def]
    cases hmj : merge_join l u with
    | nil => exact ⟨⟨[]⟩, rfl⟩
    | cons m rest =>
      have hmem2 : ∀ x ∈ m :: rest, x.id.bit_length = m.id.bit_length := by
        intro x hx
        rw [hmem x (by rw [hmj]; exact hx), hmem m (by rw [hmj]; simp)]
      exact ⟨_, try_new_cons_ok m rest hmem2⟩
  refine ⟨hmerge, ?_⟩
  intro tid hl hu hsub
  obtain ⟨tn, ts, rfl⟩ : ∃ tn ts, l = tn :: ts := by
    cases l with
    | nil => exact absurd rfl hl
    | cons a as => exact ⟨a, as, rfl⟩
  obtain ⟨un, us, rfl⟩ : ∃ un us, u = un :: us := by
    cases u with
    | nil => exact absurd rfl hu
    | cons a as => exact ⟨a, as, rfl⟩
  obtain ⟨row, hrow⟩ := hmerge
  rw [tile_merge_main,
    if_neg (not_not_intro (by rw [hdu un (by simp), hdl tn (by simp)])),
    hsub]
  simp only [Bool.not_true]
  rw [if_neg (by simp), hrow]

/-- C10 witness: the merged row of two concrete equal-depth rows passes the
re-validation. -/
theorem claim_C10_witness :
    (∃ row, Smt.merge ⟨[wN1]⟩ ⟨[wN2]⟩ = .ok row) ∧
    (∀ tid : ID, [wN1] ≠ [] → [wN2] ≠ [] →
      NodesRow.in_subtree ⟨[wN2]⟩ tid = true →
      (Tile.merge ⟨tid, ⟨[wN1]⟩⟩ ⟨[wN2]⟩).2 = Except.ok ()) :=
  claim_C10 [wN1] [wN2] 2 (by decide) (by decide)

def c3A : ID := ⟨[], 128, 1⟩

def c3n1 : Node := ⟨c3A, List.replicate 32 1⟩

def c3n2 : Node := ⟨c3A, List.replicate 32 2⟩

/-- C3 counterexample: the validating constructor accepts an input holding
two distinct nodes with the same Address and different hashes, and returns
a NodeSet in which that Address appears twice — the no-two-nodes-share-an-
Address invariant does not hold of every reachable NodeSet. -/
theorem claim_C3_counterexample :
    NodesRow.try_new [c3n1, c3n2] = .ok ⟨[c3n1, c3n2]⟩ ∧
    c3n1.id = c3n2.id ∧ c3n1 ≠ c3n2 :=
  ⟨rfl, rfl, by decide⟩

/-- C3 (amended): every NodeSet reachable through the public operations —
the output of `try_new` and the leaves of a Tile after successful merges —
is depth-uniform, sorted ascending (non-strictly) by Address, and has no
two adjacent equal nodes; full Address uniqueness is not guaranteed when
distinct-hash duplicates of one Address are supplied. -/
theorem claim_C3 :
    (∀ (l : List Node) (row : NodesRow),
      NodesRow.try_new l = .ok row → row_inv row.nodes) ∧
    (∀ (t t' : Tile) (u : NodesRow),
      row_inv t.leaves.nodes → row_inv u.nodes →
      Tile.merge t u = (t', Except.ok ()) → row_inv t'.leaves.nodes) := by
  refine ⟨fun l row h => (try_new_ok_inv l row h).1, ?_⟩
  intro t t' u hti hui hmerge
  obtain ⟨tid, ⟨tnodes⟩⟩ := t
  obtain ⟨unodes⟩ := u
  cases unodes with
  | nil =>
    rw [tile_merge_empty_update] at hmerge
    have hfst : (⟨tid, ⟨tnodes⟩⟩ : Tile) = t' := congrArg Prod.fst hmerge
    rw [← hfst]
    exact hti
  | cons un us =>
    cases tnodes with
    | nil =>
      rw [tile_merge_into_empty] at hmerge
      have hfst : (⟨tid, ⟨un :: us⟩⟩ : Tile) = t' := congrArg Prod.fst hmerge
      rw [← hfst]
      exact hui
    | cons tn ts =>
      rw [tile_merge_main] at hmerge
      by_cases h1 : un.id.bit_length ≠ tn.id.bit_length
      · rw [if_pos h1] at hmerge
        have hsnd : (Except.error (tile_depth_error un.id.bit_length tn.id.bit_length) :
            Except String Unit) = Except.ok () := congrArg Prod.snd hmerge
        cases hsnd
      rw [if_neg h1] at hmerge
      by_cases h2 : NodesRow.in_subtree ⟨un :: us⟩ tid = true
      · rw [h2] at hmerge
        simp only [Bool.not_true] at hmerge
        rw [if_neg (by simp)] at hmerge
        rcases hm : Smt.merge ⟨tn :: ts⟩ ⟨un :: us⟩ with e | mrow
        · rw [hm] at hmerge
          have hsnd : (Except.error e : Except String Unit) = Except.ok () :=
            congrArg Prod.snd hmerge
          cases hsnd
        · rw [hm] at hmerge
          have hfst : (⟨tid, mrow⟩ : Tile) = t' := congrArg Prod.fst hmerge
          rw [← hfst]
          rw [merge_def] at hm
          exact (try_new_ok_inv _ _ hm).1
      · have h2f : NodesRow.in_subtree ⟨un :: us⟩ tid = false := by
          cases hh : NodesRow.in_subtree ⟨un :: us⟩ tid
          · rfl
          · exact absurd hh h2
        rw [h2f] at hmerge
        simp only [Bool.not_false] at hmerge
        rw [if_pos trivial] at hmerge
        have hsnd : (Except.error tile_subtree_error : Except String Unit) =
            Except.ok () := congrArg Prod.snd hmerge
        cases hsnd

/-- C3 witness: a concrete accepted row satisfies the invariant. -/
theorem claim_C3_witness : row_inv [wN1, wN2] :=
  claim_C3.1 [wN2, wN1] ⟨[wN1, wN2]⟩ rfl

def c4A : ID := ⟨[10], 176, 4⟩

def c4n1 : Node := ⟨c4A, List.replicate 32 7⟩

def c4n2 : Node := ⟨c4A, List.replicate 32 9⟩

/-- C4 counterexample: two entries with the same Address and different
hashes are both kept by `try_new` — the result has two entries for that
Address, not one. -/
theorem claim_C4_counterexample :
    NodesRow.try_new [c4n1, c4n2] = .ok ⟨[c4n1, c4n2]⟩ ∧
    ([c4n1, c4n2].filter (fun n => decide (n.id = c4A))).length = 2 :=
  ⟨rfl, rfl⟩

/-- C4 (amended): on an input of two entries with the same Address,
`try_new` succeeds; it collapses them to one entry exactly when they are
fully equal (same hash); with different hashes both entries are retained. -/
theorem claim_C4 (A : ID) (h1 h2 : List Nat) :
    NodesRow.try_new [⟨A, h1⟩, ⟨A, h2⟩] =
      .ok ⟨if h1 = h2 then [⟨A, h1⟩] else [⟨A, h1⟩, ⟨A, h2⟩]⟩ := by
  have hd : ∀ m ∈ [(⟨A, h1⟩ : Node), ⟨A, h2⟩],
      m.id.bit_length = (⟨A, h1⟩ : Node).id.bit_length := by
    intro m hm
    rcases List.mem_cons.mp hm with rfl | hm
    · rfl
    rcases List.mem_cons.mp hm with rfl | hm
    · rfl
    cases hm
  rw [try_new_cons_ok _ _ hd]
  have hle : nodeLe ⟨A, h1⟩ ⟨A, h2⟩ := by
    intro hc
    have hc2 : ID.cmp A A = .gt := hc
    rw [ID.cmp_self] at hc2
    cases hc2
  have hsort : sortNodes [(⟨A, h1⟩ : Node), ⟨A, h2⟩] = [⟨A, h1⟩, ⟨A, h2⟩] := by
    apply sortNodes_eq_of_sorted
    refine List.pairwise_cons.mpr ⟨?_, List.pairwise_singleton _ _⟩
    intro m hm
    rcases List.mem_cons.mp hm with rfl | hm
    · exact hle
    cases hm
  rw [hsort]
  by_cases hh : h1 = h2
  · subst hh
    rw [if_pos rfl]
    simp [dedup]
  · have hne : (⟨A, h1⟩ : Node) ≠ ⟨A, h2⟩ := by
      intro he
      injection he with _ hh2
      exact hh hh2
    rw [if_neg hh]
    simp [dedup, hne]

def c5good : Node := ⟨⟨[], 128, 2⟩, []⟩

def c5bad : Node := ⟨⟨[], 128, 3⟩, []⟩

/-- C5: `try_new` on an empty input returns the empty NodeSet; on a
non-empty input it succeeds when every element has the bit length of the
first, and fails at the first offending index, reporting that index and
the actual vs. expected depth; sorting and dedup never fail. -/
theorem claim_C5 :
    (NodesRow.try_new [] = .ok ⟨[]⟩) ∧
    (∀ (n : Node) (rest : List Node),
      (∀ m ∈ n :: rest, m.id.bit_length = n.id.bit_length) →
      ∃ row, NodesRow.try_new (n :: rest) = .ok row) ∧
    (∀ (n : Node) (rest : List Node) (j : Nat) (m : Node),
      (n :: rest)[j]? = some m →
      (∀ k, k < j → ∀ m', (n :: rest)[k]? = some m' →
        m'.id.bit_length = n.id.bit_length) →
      m.id.bit_length ≠ n.id.bit_length →
      NodesRow.try_new (n :: rest) =
        .error (node_depth_error j m.id.bit_length n.id.bit_length)) :=
  ⟨try_new_nil, fun n rest h => ⟨_, try_new_cons_ok n rest h⟩, try_new_cons_error⟩

/-- C5 witness: a concrete mismatched row fails, naming index 1 and the
depths 3 vs 2. -/
theorem claim_C5_witness :
    NodesRow.try_new [c5good, c5bad] =
      .error (node_depth_error 1 c5bad.id.bit_length c5good.id.bit_length) := by
  refine claim_C5.2.2 c5good [c5bad] 1 c5bad rfl ?_ (by decide)
  intro k hk m' hm'
  have hk0 : k = 0 := by omega
  subst hk0
  simp only [List.getElem?_cons_zero, Option.some.injEq] at hm'
  rw [← hm']

/-- C6: for a valid (well-formed, depth-uniform, sorted) NodeSet,
`in_subtree root` is true iff the set is non-empty and every element is
strictly longer than root and has root as its prefix; the first/last check
is equivalent to the universal check, and the empty NodeSet gives false. -/
theorem claim_C6 :
    (∀ root : ID, NodesRow.in_subtree ⟨[]⟩ root = false) ∧
    (∀ (l : List Node) (root : ID) (D : Nat),
      (∀ n ∈ l, n.id.wf) → root.wf →
      (∀ n ∈ l, n.id.bit_length = D) → l.Pairwise nodeLe →
      (NodesRow.in_subtree ⟨l⟩ root = true ↔
        (l ≠ [] ∧ ∀ n ∈ l, root.bit_length < n.id.bit_length ∧
          n.id.prefix_bits root.bit_length = some root))) :=
  ⟨fun _ => rfl, in_subtree_iff⟩

/-- C6 witness: the characterization at a concrete sorted row. -/
theorem claim_C6_witness :
    NodesRow.in_subtree ⟨[wN1, wN2]⟩ wRoot = true ↔
      ([wN1, wN2] ≠ [] ∧ ∀ n ∈ [wN1, wN2],
        wRoot.bit_length < n.id.bit_length ∧
        n.id.prefix_bits wRoot.bit_length = some wRoot) :=
  claim_C6.2 [wN1, wN2] wRoot 2 (by decide) (by decide) (by decide) (by decide)

/-- C7 counterexample: the structural Address order does not coincide with
bit-string lexicographic order across different bit lengths: the 8-bit
address 00000001 compares structurally below the 9-bit address 000000001,
yet its bit string does not lexicographically precede the other — the
other's precedes it. -/
theorem claim_C7_counterexample :
    new_id [1] 8 = some ⟨[], 1, 8⟩ ∧
    new_id [0, 128] 9 = some ⟨[0], 128, 1⟩ ∧
    ID.cmp ⟨[], 1, 8⟩ ⟨[0], 128, 1⟩ = .lt ∧
    lexLt (ID.toBits ⟨[], 1, 8⟩) (ID.toBits ⟨[0], 128, 1⟩) = false ∧
    lexLt (ID.toBits ⟨[0], 128, 1⟩) (ID.toBits ⟨[], 1, 8⟩) = true :=
  ⟨rfl, rfl, rfl, rfl, rfl⟩

/-- C7 (amended): the Address comparison is a (strict-part transitive,
antisymmetric) total order, it coincides with bit-string lexicographic
comparison for addresses of EQUAL bit length, and Node ordering delegates
entirely to the Address order. -/
theorem claim_C7 :
    (∀ a b c : ID, ID.cmp a b = .lt → ID.cmp b c = .lt → ID.cmp a c = .lt) ∧
    (∀ a b : ID, ID.cmp a b = .eq ↔ a = b) ∧
    (∀ a b : ID, ID.cmp a b = .gt ↔ ID.cmp b a = .lt) ∧
    (∀ a b : ID, a.wf → b.wf → a.bit_length = b.bit_length →
      (ID.cmp a b = .lt ↔ lexLt a.toBits b.toBits = true)) ∧
    (∀ n m : Node, Node.cmp n m = ID.cmp n.id m.id) := by
  refine ⟨fun a b c => ID.cmp_lt_trans, ID.cmp_eq_iff, ID.cmp_gt_iff_swap, ?_,
    fun n m => rfl⟩
  intro a b ha hb hlen
  rw [ID.cmp_lt_iff_val a b ha hb hlen,
    lexLt_iff_val a.toBits b.toBits
      (by rw [toBits_length a ha.1, toBits_length b hb.1, hlen])]

/-- C7 witness: the equal-length coincidence at two concrete 2-bit
addresses. -/
theorem claim_C7_witness :
    ID.cmp wIdA wIdB = .lt ↔ lexLt wIdA.toBits wIdB.toBits = true :=
  claim_C7.2.2.2.1 wIdA wIdB (by decide) (by decide) (by decide)

/-- C8: Address equality is canonical: two constructions from byte buffers
agreeing on their first k bits produce equal Addresses, and two
well-formed Addresses are equal iff they have the same bit length and the
same logical bit string. -/
theorem claim_C8 :
    (∀ (B1 B2 : List Nat) (k : Nat),
      (∀ b ∈ B1, b < 256) → (∀ b ∈ B2, b < 256) →
      k ≤ 8 * B1.length → k ≤ 8 * B2.length →
      (bytesBits B1).take k = (bytesBits B2).take k →
      new_id B1 k = new_id B2 k) ∧
    (∀ a b : ID, a.wf → b.wf →
      (a = b ↔ (a.bit_length = b.bit_length ∧ a.toBits = b.toBits))) := by
  constructor
  · intro B1 B2 k h1 h2 hk1 hk2 hagree
    obtain ⟨n1, e1, w1, l1, t1⟩ := new_id_spec B1 k h1 hk1
    obtain ⟨n2, e2, w2, l2, t2⟩ := new_id_spec B2 k h2 hk2
    rw [e1, e2, toBits_inj n1 n2 w1 w2 (by rw [t1, t2, hagree])]
  · intro a b ha hb
    constructor
    · intro h
      subst h
      exact ⟨rfl, rfl⟩
    · intro h
      exact toBits_inj a b ha hb h.2

/-- C8 witness: the same 8 leading bits from buffers of different lengths
give the same Address. -/
theorem claim_C8_witness :
    new_id [171] 8 = new_id [171, 205] 8 ∧
    (wIdA = wIdA ↔ (wIdA.bit_length = wIdA.bit_length ∧ wIdA.toBits = wIdA.toBits)) :=
  ⟨claim_C8.1 [171] [171, 205] 8 (by decide) (by decide) (by decide) (by decide)
    (by decide),
   claim_C8.2 wIdA wIdA (by decide) (by decide)⟩

/-- C9: for a well-formed Address A and k ≤ A.bit_length, prefix succeeds
and the result has bit length k; the full prefix is A itself; the empty
prefix is the empty Address; prefix fails (panics, modelled as none)
exactly when k exceeds the bit length. -/
theorem claim_C9 (A : ID) (hwf : A.wf) :
    (∀ k, k ≤ A.bit_length → ∃ p, A.prefix_bits k = some p ∧ p.bit_length = k) ∧
    A.prefix_bits A.bit_length = some A ∧
    A.prefix_bits 0 = some ⟨[], 0, 0⟩ ∧
    (∀ k, A.bit_length < k → A.prefix_bits k = none) := by
  refine ⟨?_, ?_, rfl, ?_⟩
  · intro k hk
    obtain ⟨p, hp, hw, hl, ht⟩ := prefix_bits_spec A k hwf hk
    exact ⟨p, hp, hl⟩
  · obtain ⟨p, hp, hw, hl, ht⟩ := prefix_bits_spec A A.bit_length hwf (le_refl _)
    rw [hp]
    have hbits : p.toBits = A.toBits := by
      rw [ht, ← toBits_length A hwf.1, List.take_length]
    rw [toBits_inj p A hw hwf hbits]
  · intro k hk
    unfold ID.prefix_bits
    rw [if_neg (by omega), if_pos hk]

def w9A : ID := ⟨[10, 11], 192, 3⟩

/-- C9 witness: the prefix properties at a concrete 19-bit address. -/
theorem claim_C9_witness :
    (∀ k, k ≤ w9A.bit_length → ∃ p, w9A.prefix_bits k = some p ∧ p.bit_length = k) ∧
    w9A.prefix_bits w9A.bit_length = some w9A ∧
    w9A.prefix_bits 0 = some ⟨[], 0, 0⟩ ∧
    (∀ k, w9A.bit_length < k → w9A.prefix_bits k = none) :=
  claim_C9 w9A (by decide)

end Smt

